import Mathlib

/-!
Verification development for the lock primitives of bt2_locks.cpp
(`mcs_lock`, `spin_lock`) and the record-skipping logic of
bowtie_convert.cpp (`convert_bwt_to_maq`).

The lock code is embedded as interleaving small-step transition systems:
one configuration holds the shared atomic state (the MCS tail `q`, the
spinlock `flag`) together with every thread's `thread_local` node fields
(`next`, `unlocked`) and a program counter per thread marking the atomic
access it will perform next.  Each constructor of a `Step` relation is one
atomic access of the source.  Ghost fields (`stamp`, `clock`) record the
order of tail exchanges; they influence nothing and are only observed.
-/

/-- Thread identifiers. -/
abbrev Tid := Nat

/-- Pointwise update of a function at one key; used for per-thread fields. -/
def upd {α β : Type} [DecidableEq α] (f : α → β) (a : α) (v : β) : α → β :=
  fun x => if x = a then v else f x

@[simp] theorem upd_same {α β : Type} [DecidableEq α] (f : α → β) (a : α) (v : β) :
    upd f a v a = v := by
  simp [upd]

theorem upd_ne {α β : Type} [DecidableEq α] (f : α → β) (a : α) (v : β)
    {x : α} (h : x ≠ a) : upd f a v x = f x := by
  simp [upd, h]

namespace Mcs

/-- Program counter of a thread with respect to the single `mcs_lock` object.
Each value names the next atomic access of `mcs_lock::lock` / `mcs_lock::unlock`
(bt2_locks.cpp):
* `idle`: outside both operations;
* `l1`: about to run `node.next = nullptr`;
* `l2`: about to run `node.unlocked = false`;
* `l3`: about to run `q.exchange(&node, release)`;
* `l4 pred`: exchange returned `pred`; about to run `pred->next = &node`;
* `l5`: inside `spin_while_eq(node.unlocked, false)`;
* `l6`: about to run `node.unlocked.load(acquire)` and return from `lock()`;
* `cs`: inside the critical section;
* `u1`: about to read `node.next` at the top of `unlock()`;
* `u2`: about to run `q.compare_exchange_strong(&node, nullptr, release)`;
* `u3`: inside `spin_while_eq(node.next, nullptr)`;
* `u5`: about to run `node.next->unlocked.store(true, release)`. -/
inductive PC where
  | idle
  | l1
  | l2
  | l3
  | l4 (pred : Tid)
  | l5
  | l6
  | cs
  | u1
  | u2
  | u3
  | u5
deriving DecidableEq

/-- Global configuration of the MCS lock system: the shared tail `q`, the
per-thread `thread_local` node fields `next`/`unlocked` (bt2_locks.cpp
declares a single static `thread_local mcs_lock::mcs_node mcs_lock::node`,
so node state is keyed by thread), every thread's program counter, and the
ghost exchange-order bookkeeping `stamp`/`clock`. -/
structure Config where
  tail : Option Tid
  next : Tid → Option Tid
  unlocked : Tid → Bool
  pc : Tid → PC
  stamp : Tid → Nat
  clock : Nat

/-- Modelled from the spec: `spin_while_eq` is declared in bt2_locks.h, which
is not under src/; per §9 of the spec it busy-waits, re-reading an atomic
field until it no longer equals the expected value.  A spin loop therefore
exits exactly when the value currently read differs from `expected`. -/
def spin_exits {α : Type} (value expected : α) : Prop := value ≠ expected

/-- One atomic step of a single thread `t`, following mcs_lock::lock and
mcs_lock::unlock line by line (see `PC` for the correspondence).  The
busy-wait transitions (`spinExit`, `waitLink`) use `spin_exits`, the
spec-modelled exit condition of `spin_while_eq`. -/
inductive Step : Tid → Config → Config → Prop where
  | call (t : Tid) (c : Config) (h : c.pc t = .idle) :
      Step t c { c with pc := upd c.pc t .l1 }
  | resetNext (t : Tid) (c : Config) (h : c.pc t = .l1) :
      Step t c { c with next := upd c.next t none, pc := upd c.pc t .l2 }
  | resetUnlocked (t : Tid) (c : Config) (h : c.pc t = .l2) :
      Step t c { c with unlocked := upd c.unlocked t false, pc := upd c.pc t .l3 }
  | exchFree (t : Tid) (c : Config) (h : c.pc t = .l3) (hq : c.tail = none) :
      Step t c { c with tail := some t, stamp := upd c.stamp t c.clock,
                        clock := c.clock + 1, pc := upd c.pc t .l6 }
  | exchQueued (t : Tid) (c : Config) (p : Tid) (h : c.pc t = .l3)
      (hq : c.tail = some p) :
      Step t c { c with tail := some t, stamp := upd c.stamp t c.clock,
                        clock := c.clock + 1, pc := upd c.pc t (.l4 p) }
  | link (t : Tid) (c : Config) (p : Tid) (h : c.pc t = .l4 p) :
      Step t c { c with next := upd c.next p (some t), pc := upd c.pc t .l5 }
  | spinExit (t : Tid) (c : Config) (h : c.pc t = .l5)
      (hu : spin_exits (c.unlocked t) false) :
      Step t c { c with pc := upd c.pc t .l6 }
  | acqLoad (t : Tid) (c : Config) (h : c.pc t = .l6) :
      Step t c { c with pc := upd c.pc t .cs }
  | beginUnlock (t : Tid) (c : Config) (h : c.pc t = .cs) :
      Step t c { c with pc := upd c.pc t .u1 }
  | checkNextNone (t : Tid) (c : Config) (h : c.pc t = .u1) (hn : c.next t = none) :
      Step t c { c with pc := upd c.pc t .u2 }
  | checkNextSome (t : Tid) (c : Config) (s : Tid) (h : c.pc t = .u1)
      (hn : c.next t = some s) :
      Step t c { c with pc := upd c.pc t .u5 }
  | casSuccess (t : Tid) (c : Config) (h : c.pc t = .u2) (hq : c.tail = some t) :
      Step t c { c with tail := none, pc := upd c.pc t .idle }
  | casFail (t : Tid) (c : Config) (h : c.pc t = .u2) (hq : c.tail ≠ some t) :
      Step t c { c with pc := upd c.pc t .u3 }
  | waitLink (t : Tid) (c : Config) (h : c.pc t = .u3)
      (hn : spin_exits (c.next t) (none : Option Tid)) :
      Step t c { c with pc := upd c.pc t .u5 }
  | wake (t : Tid) (c : Config) (s : Tid) (h : c.pc t = .u5) (hn : c.next t = some s) :
      Step t c { c with unlocked := upd c.unlocked s true, pc := upd c.pc t .idle }

/-- Some thread takes a step. -/
def StepAny (c c' : Config) : Prop := ∃ t, Step t c c'

/-- Initial configurations: the lock is free and no thread is inside an
operation.  Node fields are arbitrary (the C++ atomics are not initialised
before the first `lock()` resets them). -/
def Init (c : Config) : Prop := c.tail = none ∧ ∀ t, c.pc t = .idle

/-- Configurations reachable from some initial configuration. -/
def Reachable (c : Config) : Prop :=
  ∃ c₀, Init c₀ ∧ Relation.ReflTransGen StepAny c₀ c

/-- Program counters of threads that have performed the tail exchange and not
yet finished releasing: members of the MCS queue. -/
def inQueuePC : PC → Bool
  | .l4 _ | .l5 | .l6 | .cs | .u1 | .u2 | .u3 | .u5 => true
  | _ => false

/-- Program counters possible for the head of the queue. -/
def headPC : PC → Bool
  | .l5 | .l6 | .cs | .u1 | .u2 | .u3 | .u5 => true
  | _ => false

/-- Program counters of a thread that has been granted the lock and has not
yet released it (from passing the spin of `lock()` up to the end of
`unlock()`). -/
def holdsPC : PC → Bool
  | .l6 | .cs | .u1 | .u2 | .u3 | .u5 => true
  | _ => false

/-- Program counters of a thread waiting behind a predecessor in `lock()`. -/
def waitPC : PC → Bool
  | .l4 _ | .l5 => true
  | _ => false

/-- Queue segment invariant: `QSeg c p rest` says that starting from node `p`
the remaining queue is `rest`.  An empty remainder means `p` is the tail of
the queue and its `next` link is unset; otherwise the first element `t` of
the remainder enqueued after `p` (larger ghost stamp), is still waiting
(`unlocked` false), and either has already published the link
(`pc = l5`, `next p = some t`) or is between its exchange and the link
publication (`pc = l4 p`, `next p = none`). -/
def QSeg (c : Config) : Tid → List Tid → Prop
  | p, [] => c.tail = some p ∧ c.next p = none
  | p, t :: rest =>
      c.stamp p < c.stamp t ∧ c.unlocked t = false ∧
      ((c.pc t = .l5 ∧ c.next p = some t) ∨ (c.pc t = .l4 p ∧ c.next p = none)) ∧
      QSeg c t rest

/-- The whole queue: empty iff the tail pointer is empty; otherwise the head
has been granted (or is the sole arrival) and the rest forms a segment. -/
def QList (c : Config) : List Tid → Prop
  | [] => c.tail = none
  | h :: rest => headPC (c.pc h) = true ∧ QSeg c h rest

/-- Full inductive invariant of the MCS lock, indexed by the queue contents. -/
structure QInv (c : Config) (l : List Tid) : Prop where
  qlist : QList c l
  mem_iff : ∀ t : Tid, t ∈ l ↔ inQueuePC (c.pc t) = true
  reset2 : ∀ t, c.pc t = .l2 → c.next t = none
  reset3 : ∀ t, c.pc t = .l3 → c.next t = none ∧ c.unlocked t = false
  stampsLt : ∀ t ∈ l, c.stamp t < c.clock

/-- The invariant proper: some queue list witnesses `QInv`. -/
def Inv (c : Config) : Prop := ∃ l, QInv c l

theorem qseg_stamp_lt {c : Config} :
    ∀ {p : Tid} {rest : List Tid}, QSeg c p rest →
      ∀ x ∈ rest, c.stamp p < c.stamp x := by
  intro p rest
  induction rest generalizing p with
  | nil => intro _ x hx; cases hx
  | cons t rest ih =>
    intro h x hx
    obtain ⟨h1, _, _, hs⟩ := h
    rcases List.mem_cons.mp hx with hx | hx
    · subst hx; exact h1
    · exact lt_trans h1 (ih hs x hx)

theorem qseg_not_mem {c : Config} {p : Tid} {rest : List Tid}
    (h : QSeg c p rest) : p ∉ rest := by
  intro hm
  exact lt_irrefl _ (qseg_stamp_lt h p hm)

theorem qseg_waiter {c : Config} :
    ∀ {p : Tid} {rest : List Tid}, QSeg c p rest →
      ∀ x ∈ rest, c.unlocked x = false ∧
        (c.pc x = .l5 ∨ ∃ pr, c.pc x = .l4 pr) := by
  intro p rest
  induction rest generalizing p with
  | nil => intro _ x hx; cases hx
  | cons t rest ih =>
    intro h x hx
    obtain ⟨_, h2, h3, hs⟩ := h
    rcases List.mem_cons.mp hx with hx | hx
    · subst hx
      refine ⟨h2, ?_⟩
      rcases h3 with ⟨h3, _⟩ | ⟨h3, _⟩
      · exact Or.inl h3
      · exact Or.inr ⟨p, h3⟩
    · exact ih hs x hx

theorem qseg_tail_cases {c : Config} :
    ∀ {p : Tid} {rest : List Tid}, QSeg c p rest →
      (rest = [] ∧ c.tail = some p ∧ c.next p = none) ∨
        ∃ z ∈ rest, c.tail = some z := by
  intro p rest
  induction rest generalizing p with
  | nil => intro h; exact Or.inl ⟨rfl, h.1, h.2⟩
  | cons t rest ih =>
    intro h
    obtain ⟨_, _, _, hs⟩ := h
    rcases ih hs with ⟨_, htail, _⟩ | ⟨z, hz, htail⟩
    · exact Or.inr ⟨t, List.mem_cons_self _ _, htail⟩
    · exact Or.inr ⟨z, List.mem_cons_of_mem _ hz, htail⟩

theorem qseg_frame {c c' : Config} :
    ∀ {p : Tid} {rest : List Tid}, QSeg c p rest →
      c'.tail = c.tail →
      c'.next p = c.next p → c'.stamp p = c.stamp p →
      (∀ x ∈ rest, c'.next x = c.next x ∧ c'.stamp x = c.stamp x ∧
        c'.unlocked x = c.unlocked x ∧ c'.pc x = c.pc x) →
      QSeg c' p rest := by
  intro p rest
  induction rest generalizing p with
  | nil =>
    intro h htail hnp _ _
    exact ⟨htail.trans h.1, hnp.trans h.2⟩
  | cons t rest ih =>
    intro h htail hnp hsp hrest
    obtain ⟨h1, h2, h3, hs⟩ := h
    obtain ⟨hnt, hst, hut, hpt⟩ := hrest t (List.mem_cons_self _ _)
    refine ⟨?_, hut.trans h2, ?_, ?_⟩
    · rw [hsp, hst]; exact h1
    · rcases h3 with ⟨ha, hb⟩ | ⟨ha, hb⟩
      · exact Or.inl ⟨hpt.trans ha, hnp.trans hb⟩
      · exact Or.inr ⟨hpt.trans ha, hnp.trans hb⟩
    · exact ih hs htail hnt hst
        (fun x hx => hrest x (List.mem_cons_of_mem _ hx))

theorem qseg_l4_pred {c : Config} :
    ∀ {p : Tid} {rest : List Tid}, QSeg c p rest →
      ∀ t ∈ rest, ∀ p0, c.pc t = .l4 p0 → p0 = p ∨ p0 ∈ rest := by
  intro p rest
  induction rest generalizing p with
  | nil => intro _ t ht; cases ht
  | cons x rest ih =>
    intro h t ht p0 hpc
    obtain ⟨_, _, h3, hs⟩ := h
    rcases List.mem_cons.mp ht with ht | ht
    · subst ht
      rcases h3 with ⟨ha, _⟩ | ⟨ha, _⟩
      · rw [hpc] at ha; cases ha
      · rw [hpc] at ha
        exact Or.inl (PC.l4.inj ha)
    · rcases ih hs t ht p0 hpc with hp | hp
      · exact Or.inr (by rw [hp]; exact List.mem_cons_self x rest)
      · exact Or.inr (List.mem_cons_of_mem _ hp)

theorem holds_inQueue {π : PC} (h : holdsPC π = true) : inQueuePC π = true := by
  cases π <;> simp_all [holdsPC, inQueuePC]

theorem wait_inQueue {π : PC} (h : waitPC π = true) : inQueuePC π = true := by
  cases π <;> simp_all [waitPC, inQueuePC]

theorem headPC_not_l2_l3 {π : PC} (h : headPC π = true) :
    π ≠ .l2 ∧ π ≠ .l3 ∧ inQueuePC π = true := by
  cases π <;> simp_all [headPC, inQueuePC]

/-- A queue member that is neither waiting at `l4` nor blocked-with-false
`unlocked` at `l5` must be the head of the queue. -/
theorem eq_head {c : Config} {l : List Tid} (hq : QInv c l) {t : Tid}
    (hmem : t ∈ l)
    (hnw : ¬(c.unlocked t = false ∧ (c.pc t = .l5 ∨ ∃ pr, c.pc t = .l4 pr))) :
    ∃ rest, l = t :: rest := by
  cases l with
  | nil => cases hmem
  | cons hd rest =>
    rcases List.mem_cons.mp hmem with h | h
    · exact ⟨rest, by rw [h]⟩
    · exact absurd (qseg_waiter hq.qlist.2 t h) hnw

theorem inv_init {c : Config} (h : Init c) : Inv c := by
  refine ⟨[], ?_, ?_, ?_, ?_, ?_⟩
  · exact h.1
  · intro t
    rw [h.2 t]
    simp [inQueuePC]
  · intro t hpc
    rw [h.2 t] at hpc
    cases hpc
  · intro t hpc
    rw [h.2 t] at hpc
    cases hpc
  · intro t ht
    cases ht

/-- Frame: a step by a thread outside the queue that leaves the tail alone,
does not decrease the clock and keeps the thread outside the queue
preserves the invariant with the same queue. -/
theorem qinv_out {c : Config} {l : List Tid} (hq : QInv c l) {t : Tid}
    (hout : inQueuePC (c.pc t) = false) (c' : Config)
    (htail : c'.tail = c.tail) (hclk2 : c'.clock = c.clock)
    (hframe : ∀ s, s ≠ t → c'.next s = c.next s ∧ c'.stamp s = c.stamp s ∧
      c'.unlocked s = c.unlocked s ∧ c'.pc s = c.pc s)
    (hnew : inQueuePC (c'.pc t) = false)
    (hr2 : c'.pc t = .l2 → c'.next t = none)
    (hr3 : c'.pc t = .l3 → c'.next t = none ∧ c'.unlocked t = false) :
    QInv c' l := by
  have htl : t ∉ l := by
    intro hm
    rw [(hq.mem_iff t).mp hm] at hout
    cases hout
  have hne : ∀ s, s ∈ l → s ≠ t := fun s hs h => htl (h ▸ hs)
  refine ⟨?_, ?_, ?_, ?_, ?_⟩
  · cases l with
    | nil =>
      show c'.tail = none
      rw [htail]
      exact hq.qlist
    | cons hd rest =>
      have hhd : hd ≠ t := hne hd (List.mem_cons_self _ _)
      refine ⟨?_, ?_⟩
      · rw [(hframe hd hhd).2.2.2]
        exact hq.qlist.1
      · exact qseg_frame hq.qlist.2 htail (hframe hd hhd).1 (hframe hd hhd).2.1
          (fun x hx => by
            have hx' : x ≠ t := hne x (List.mem_cons_of_mem _ hx)
            exact ⟨(hframe x hx').1, (hframe x hx').2.1,
              (hframe x hx').2.2.1, (hframe x hx').2.2.2⟩)
  · intro s
    by_cases hs : s = t
    · subst hs
      exact iff_of_false htl (by rw [hnew]; simp)
    · rw [(hframe s hs).2.2.2]
      exact hq.mem_iff s
  · intro s hpc
    by_cases hs : s = t
    · subst hs
      exact hr2 hpc
    · rw [(hframe s hs).1]
      exact hq.reset2 s (((hframe s hs).2.2.2).symm.trans hpc)
  · intro s hpc
    by_cases hs : s = t
    · subst hs
      exact hr3 hpc
    · rw [(hframe s hs).1, (hframe s hs).2.2.1]
      exact hq.reset3 s (((hframe s hs).2.2.2).symm.trans hpc)
  · intro s hsl
    rw [(hframe s (hne s hsl)).2.1, hclk2]
    exact hq.stampsLt s hsl

/-- Frame: changing only the head's program counter to another head pc
preserves the invariant with the same queue. -/
theorem qinv_headpc {c : Config} {hd : Tid} {rest : List Tid}
    (hq : QInv c (hd :: rest)) (π : PC) (hπ : headPC π = true) :
    QInv { c with pc := upd c.pc hd π } (hd :: rest) := by
  have hnm : hd ∉ rest := qseg_not_mem hq.qlist.2
  refine ⟨⟨?_, ?_⟩, ?_, ?_, ?_, ?_⟩
  · show headPC (upd c.pc hd π hd) = true
    rw [upd_same]
    exact hπ
  · exact qseg_frame hq.qlist.2 rfl rfl rfl
      (fun x hx => ⟨rfl, rfl, rfl, upd_ne _ _ _ (fun h => hnm (h ▸ hx))⟩)
  · intro s
    by_cases hs : s = hd
    · subst hs
      refine iff_of_true (List.mem_cons_self _ _) ?_
      show inQueuePC (upd c.pc s π s) = true
      rw [upd_same]
      exact (headPC_not_l2_l3 hπ).2.2
    · show s ∈ hd :: rest ↔ inQueuePC (upd c.pc hd π s) = true
      rw [upd_ne _ _ _ hs]
      exact hq.mem_iff s
  · intro s hpc
    by_cases hs : s = hd
    · subst hs
      have hpc2 : upd c.pc s π s = PC.l2 := hpc
      rw [upd_same] at hpc2
      exact absurd hpc2 (headPC_not_l2_l3 hπ).1
    · have hpc2 : upd c.pc hd π s = PC.l2 := hpc
      rw [upd_ne _ _ _ hs] at hpc2
      exact hq.reset2 s hpc2
  · intro s hpc
    by_cases hs : s = hd
    · subst hs
      have hpc2 : upd c.pc s π s = PC.l3 := hpc
      rw [upd_same] at hpc2
      exact absurd hpc2 (headPC_not_l2_l3 hπ).2.1
    · have hpc2 : upd c.pc hd π s = PC.l3 := hpc
      rw [upd_ne _ _ _ hs] at hpc2
      exact hq.reset3 s hpc2
  · exact fun s hsl => hq.stampsLt s hsl

/-- A step that only moves a granted thread's pc to another head pc. -/
theorem qinv_pcstep {c : Config} {l : List Tid} (hq : QInv c l) {t : Tid}
    (hmem : t ∈ l)
    (hnw : ¬(c.unlocked t = false ∧ (c.pc t = .l5 ∨ ∃ pr, c.pc t = .l4 pr)))
    (π : PC) (hπ : headPC π = true) :
    QInv { c with pc := upd c.pc t π } l := by
  obtain ⟨rest, rfl⟩ := eq_head hq hmem hnw
  exact qinv_headpc hq π hπ

/-- The tail exchange of a newly arriving thread appends it to the queue. -/
theorem qseg_exch {c : Config} {t p0 : Tid}
    (hnt : c.next t = none) (hut : c.unlocked t = false)
    (htail0 : c.tail = some p0) :
    ∀ {p : Tid} {rest : List Tid}, QSeg c p rest → p ≠ t → (∀ x ∈ rest, x ≠ t) →
      c.stamp p < c.clock → (∀ x ∈ rest, c.stamp x < c.clock) →
      QSeg { c with tail := some t, stamp := upd c.stamp t c.clock,
                    clock := c.clock + 1, pc := upd c.pc t (.l4 p0) } p (rest ++ [t]) := by
  intro p rest
  induction rest generalizing p with
  | nil =>
    intro h hpt _ hps _
    have hp0 : p0 = p := Option.some.inj (htail0.symm.trans h.1)
    refine ⟨?_, hut, Or.inr ⟨?_, h.2⟩, rfl, hnt⟩
    · show upd c.stamp t c.clock p < upd c.stamp t c.clock t
      rw [upd_same, upd_ne _ _ _ hpt]
      exact hps
    · show upd c.pc t (.l4 p0) t = .l4 p
      rw [upd_same, hp0]
  | cons x rest ih =>
    intro h hpt hall hps hrs
    obtain ⟨h1, h2, h3, hs⟩ := h
    have hxt : x ≠ t := hall x (List.mem_cons_self _ _)
    refine ⟨?_, h2, ?_, ?_⟩
    · show upd c.stamp t c.clock p < upd c.stamp t c.clock x
      rw [upd_ne _ _ _ hpt, upd_ne _ _ _ hxt]
      exact h1
    · show (upd c.pc t (.l4 p0) x = .l5 ∧ c.next p = some x) ∨
        (upd c.pc t (.l4 p0) x = .l4 p ∧ c.next p = none)
      rw [upd_ne _ _ _ hxt]
      exact h3
    · exact ih hs hxt (fun y hy => hall y (List.mem_cons_of_mem _ hy))
        (hrs x (List.mem_cons_self _ _))
        (fun y hy => hrs y (List.mem_cons_of_mem _ hy))

/-- Publishing the link `pred->next = &node` turns the pending link of the
queue into a real one; the queue itself is unchanged. -/
theorem qseg_link {c : Config} {t p0 : Tid} (hpc : c.pc t = .l4 p0) :
    ∀ {p : Tid} {rest : List Tid}, QSeg c p rest → t ∈ rest →
      QSeg { c with next := upd c.next p0 (some t), pc := upd c.pc t .l5 } p rest := by
  intro p rest
  induction rest generalizing p with
  | nil => intro _ hm; cases hm
  | cons x rest ih =>
    intro h hm
    obtain ⟨h1, h2, h3, hs⟩ := h
    rcases List.mem_cons.mp hm with ht | ht
    · subst ht
      have hpt : p ≠ t := fun h => absurd (h ▸ h1) (lt_irrefl _)
      rcases h3 with ⟨ha, _⟩ | ⟨ha, hb⟩
      · exact absurd (hpc.symm.trans ha) (by simp)
      · have hp0p : p0 = p := PC.l4.inj (hpc.symm.trans ha)
        refine ⟨h1, h2, Or.inl ⟨upd_same _ _ _, ?_⟩, ?_⟩
        · show upd c.next p0 (some t) p = some t
          rw [← hp0p, upd_same]
        · refine qseg_frame hs rfl ?_ rfl ?_
          · exact upd_ne _ _ _ (fun h => hpt (hp0p ▸ h.symm))
          · intro y hy
            have hyt : y ≠ t := fun h => qseg_not_mem hs (h ▸ hy)
            have hyp0 : y ≠ p0 := by
              intro h
              have h2' : c.stamp t < c.stamp y := qseg_stamp_lt hs y hy
              rw [h, hp0p] at h2'
              exact absurd (h1.trans h2') (lt_irrefl _)
            exact ⟨upd_ne _ _ _ hyp0, rfl, rfl, upd_ne _ _ _ hyt⟩
    · have hxt : x ≠ t := fun h => qseg_not_mem hs (h ▸ ht)
      have hpp0 : p ≠ p0 := by
        rcases qseg_l4_pred hs t ht p0 hpc with h0 | h0
        · exact fun h => absurd ((h.trans h0) ▸ h1) (lt_irrefl _)
        · intro h
          have := qseg_stamp_lt hs p0 h0
          exact absurd (h1.trans this) (h ▸ lt_irrefl _)
      refine ⟨h1, h2, ?_, ih hs ht⟩
      show (upd c.pc t .l5 x = .l5 ∧ upd c.next p0 (some t) p = some x) ∨
        (upd c.pc t .l5 x = .l4 p ∧ upd c.next p0 (some t) p = none)
      rw [upd_ne _ _ _ hxt, upd_ne _ _ _ hpp0]
      exact h3

/-- The invariant is preserved by every step of every thread. -/
theorem inv_step {c c' : Config} (hInv : Inv c) (hs : StepAny c c') : Inv c' := by
  obtain ⟨l, hq⟩ := hInv
  obtain ⟨t, hstep⟩ := hs
  cases hstep with
  | call h =>
    refine ⟨l, qinv_out hq (show inQueuePC (c.pc t) = false by simp [h, inQueuePC]) _ rfl rfl ?_ ?_ ?_ ?_⟩
    · exact fun s hs => ⟨rfl, rfl, rfl, upd_ne _ _ _ hs⟩
    · show inQueuePC (upd c.pc t .l1 t) = false
      rw [upd_same]
      rfl
    · intro habs
      have habs2 : upd c.pc t .l1 t = PC.l2 := habs
      rw [upd_same] at habs2
      cases habs2
    · intro habs
      have habs2 : upd c.pc t .l1 t = PC.l3 := habs
      rw [upd_same] at habs2
      cases habs2
  | resetNext h =>
    refine ⟨l, qinv_out hq (show inQueuePC (c.pc t) = false by simp [h, inQueuePC]) _ rfl rfl ?_ ?_ ?_ ?_⟩
    · exact fun s hs => ⟨upd_ne _ _ _ hs, rfl, rfl, upd_ne _ _ _ hs⟩
    · show inQueuePC (upd c.pc t .l2 t) = false
      rw [upd_same]
      rfl
    · intro _
      show upd c.next t none t = none
      rw [upd_same]
    · intro habs
      have habs2 : upd c.pc t .l2 t = PC.l3 := habs
      rw [upd_same] at habs2
      cases habs2
  | resetUnlocked h =>
    refine ⟨l, qinv_out hq (show inQueuePC (c.pc t) = false by simp [h, inQueuePC]) _ rfl rfl ?_ ?_ ?_ ?_⟩
    · exact fun s hs => ⟨rfl, rfl, upd_ne _ _ _ hs, upd_ne _ _ _ hs⟩
    · show inQueuePC (upd c.pc t .l3 t) = false
      rw [upd_same]
      rfl
    · intro habs
      have habs2 : upd c.pc t .l3 t = PC.l2 := habs
      rw [upd_same] at habs2
      cases habs2
    · intro _
      refine ⟨hq.reset2 t h, ?_⟩
      show upd c.unlocked t false t = false
      rw [upd_same]
  | exchFree h hq0 =>
    have hlnil : l = [] := by
      cases l with
      | nil => rfl
      | cons hd rest =>
        rcases qseg_tail_cases hq.qlist.2 with ⟨_, htl, _⟩ | ⟨z, _, htl⟩ <;>
          rw [hq0] at htl <;> cases htl
    subst hlnil
    refine ⟨[t], ⟨?_, ?_, ?_⟩, ?_, ?_, ?_, ?_⟩
    · show headPC (upd c.pc t .l6 t) = true
      rw [upd_same]
      rfl
    · rfl
    · exact (hq.reset3 t h).1
    · intro s
      by_cases hs : s = t
      · subst hs
        refine iff_of_true (List.mem_cons_self _ _) ?_
        show inQueuePC (upd c.pc s .l6 s) = true
        rw [upd_same]
        rfl
      · refine iff_of_false (by simp [hs]) ?_
        show ¬ inQueuePC (upd c.pc t .l6 s) = true
        rw [upd_ne _ _ _ hs]
        intro habs
        exact (List.not_mem_nil s) ((hq.mem_iff s).mpr habs)
    · intro s hpc
      by_cases hs : s = t
      · subst hs
        have h2 : upd c.pc s .l6 s = PC.l2 := hpc
        rw [upd_same] at h2
        cases h2
      · have h2 : upd c.pc t .l6 s = PC.l2 := hpc
        rw [upd_ne _ _ _ hs] at h2
        exact hq.reset2 s h2
    · intro s hpc
      by_cases hs : s = t
      · subst hs
        have h2 : upd c.pc s .l6 s = PC.l3 := hpc
        rw [upd_same] at h2
        cases h2
      · have h2 : upd c.pc t .l6 s = PC.l3 := hpc
        rw [upd_ne _ _ _ hs] at h2
        exact hq.reset3 s h2
    · intro s hsm
      have hst : s = t := by simpa using hsm
      subst hst
      show upd c.stamp s c.clock s < c.clock + 1
      rw [upd_same]
      exact Nat.lt_succ_self _
  | exchQueued p h hq0 =>
    cases l with
    | nil =>
      have hnone : c.tail = none := hq.qlist
      rw [hq0] at hnone
      cases hnone
    | cons hd rest =>
      have hnt := (hq.reset3 t h).1
      have hut := (hq.reset3 t h).2
      have htl : t ∉ hd :: rest := by
        intro hm
        have hmm := (hq.mem_iff t).mp hm
        rw [h] at hmm
        simp [inQueuePC] at hmm
      have hhd : hd ≠ t := fun he => htl (he ▸ List.mem_cons_self _ _)
      refine ⟨hd :: (rest ++ [t]), ⟨?_, ?_⟩, ?_, ?_, ?_, ?_⟩
      · show headPC (upd c.pc t (.l4 p) hd) = true
        rw [upd_ne _ _ _ hhd]
        exact hq.qlist.1
      · exact qseg_exch hnt hut hq0 hq.qlist.2 hhd
          (fun x hx he => htl (he ▸ List.mem_cons_of_mem _ hx))
          (hq.stampsLt hd (List.mem_cons_self _ _))
          (fun y hy => hq.stampsLt y (List.mem_cons_of_mem _ hy))
      · intro s
        by_cases hs : s = t
        · subst hs
          refine iff_of_true ?_ ?_
          · exact List.mem_cons_of_mem _ (List.mem_append_right _ (List.mem_cons_self _ _))
          · show inQueuePC (upd c.pc s (.l4 p) s) = true
            rw [upd_same]
            rfl
        · have hmm : s ∈ hd :: (rest ++ [t]) ↔ s ∈ hd :: rest := by
            simp [List.mem_cons, List.mem_append, hs]
          rw [hmm]
          show s ∈ hd :: rest ↔ inQueuePC (upd c.pc t (.l4 p) s) = true
          rw [upd_ne _ _ _ hs]
          exact hq.mem_iff s
      · intro s hpc
        by_cases hs : s = t
        · subst hs
          have h2 : upd c.pc s (.l4 p) s = PC.l2 := hpc
          rw [upd_same] at h2
          cases h2
        · have h2 : upd c.pc t (.l4 p) s = PC.l2 := hpc
          rw [upd_ne _ _ _ hs] at h2
          exact hq.reset2 s h2
      · intro s hpc
        by_cases hs : s = t
        · subst hs
          have h2 : upd c.pc s (.l4 p) s = PC.l3 := hpc
          rw [upd_same] at h2
          cases h2
        · have h2 : upd c.pc t (.l4 p) s = PC.l3 := hpc
          rw [upd_ne _ _ _ hs] at h2
          exact hq.reset3 s h2
      · intro s hsm
        by_cases hs : s = t
        · subst hs
          show upd c.stamp s c.clock s < c.clock + 1
          rw [upd_same]
          exact Nat.lt_succ_self _
        · show upd c.stamp t c.clock s < c.clock + 1
          rw [upd_ne _ _ _ hs]
          have hsl : s ∈ hd :: rest := by
            rcases List.mem_cons.mp hsm with h1 | h1
            · rw [h1]; exact List.mem_cons_self _ _
            · rcases List.mem_append.mp h1 with h2 | h2
              · exact List.mem_cons_of_mem _ h2
              · have : s = t := by simpa using h2
                exact absurd this hs
          exact Nat.lt_succ_of_lt (hq.stampsLt s hsl)
  | link p h =>
    have hmem : t ∈ l := (hq.mem_iff t).mpr (by rw [h]; rfl)
    cases l with
    | nil => cases hmem
    | cons hd rest =>
      have hth : t ≠ hd := by
        intro he
        have hh := hq.qlist.1
        rw [← he, h] at hh
        simp [headPC] at hh
      have ht : t ∈ rest := (List.mem_cons.mp hmem).resolve_left hth
      have hpl : p ∈ hd :: rest := by
        rcases qseg_l4_pred hq.qlist.2 t ht p h with h1 | h1
        · rw [h1]; exact List.mem_cons_self _ _
        · exact List.mem_cons_of_mem _ h1
      refine ⟨hd :: rest, ⟨?_, ?_⟩, ?_, ?_, ?_, ?_⟩
      · show headPC (upd c.pc t .l5 hd) = true
        rw [upd_ne _ _ _ (fun he => hth he.symm)]
        exact hq.qlist.1
      · exact qseg_link h hq.qlist.2 ht
      · intro s
        by_cases hs : s = t
        · subst hs
          refine iff_of_true hmem ?_
          show inQueuePC (upd c.pc s .l5 s) = true
          rw [upd_same]
          rfl
        · show s ∈ hd :: rest ↔ inQueuePC (upd c.pc t .l5 s) = true
          rw [upd_ne _ _ _ hs]
          exact hq.mem_iff s
      · intro s hpc
        by_cases hs : s = t
        · subst hs
          have h2 : upd c.pc s .l5 s = PC.l2 := hpc
          rw [upd_same] at h2
          cases h2
        · have h2 : upd c.pc t .l5 s = PC.l2 := hpc
          rw [upd_ne _ _ _ hs] at h2
          have hnsl : s ∉ hd :: rest := by
            intro hm
            have hmm := (hq.mem_iff s).mp hm
            rw [h2] at hmm
            simp [inQueuePC] at hmm
          have hsp : s ≠ p := fun he => hnsl (he ▸ hpl)
          show upd c.next p (some t) s = none
          rw [upd_ne _ _ _ hsp]
          exact hq.reset2 s h2
      · intro s hpc
        by_cases hs : s = t
        · subst hs
          have h2 : upd c.pc s .l5 s = PC.l3 := hpc
          rw [upd_same] at h2
          cases h2
        · have h2 : upd c.pc t .l5 s = PC.l3 := hpc
          rw [upd_ne _ _ _ hs] at h2
          have hnsl : s ∉ hd :: rest := by
            intro hm
            have hmm := (hq.mem_iff s).mp hm
            rw [h2] at hmm
            simp [inQueuePC] at hmm
          have hsp : s ≠ p := fun he => hnsl (he ▸ hpl)
          refine ⟨?_, (hq.reset3 s h2).2⟩
          show upd c.next p (some t) s = none
          rw [upd_ne _ _ _ hsp]
          exact (hq.reset3 s h2).1
      · intro s hsm
        exact hq.stampsLt s hsm
  | spinExit h hu =>
    have hmem : t ∈ l := (hq.mem_iff t).mpr (by rw [h]; rfl)
    refine ⟨l, qinv_pcstep hq hmem ?_ .l6 rfl⟩
    rintro ⟨hu0, _⟩
    exact hu hu0
  | acqLoad h =>
    have hmem : t ∈ l := (hq.mem_iff t).mpr (by rw [h]; rfl)
    refine ⟨l, qinv_pcstep hq hmem ?_ .cs rfl⟩
    rintro ⟨_, h5 | ⟨pr, h4⟩⟩
    · rw [h] at h5; cases h5
    · rw [h] at h4; cases h4
  | beginUnlock h =>
    have hmem : t ∈ l := (hq.mem_iff t).mpr (by rw [h]; rfl)
    refine ⟨l, qinv_pcstep hq hmem ?_ .u1 rfl⟩
    rintro ⟨_, h5 | ⟨pr, h4⟩⟩
    · rw [h] at h5; cases h5
    · rw [h] at h4; cases h4
  | checkNextNone h hn =>
    have hmem : t ∈ l := (hq.mem_iff t).mpr (by rw [h]; rfl)
    refine ⟨l, qinv_pcstep hq hmem ?_ .u2 rfl⟩
    rintro ⟨_, h5 | ⟨pr, h4⟩⟩
    · rw [h] at h5; cases h5
    · rw [h] at h4; cases h4
  | checkNextSome s h hn =>
    have hmem : t ∈ l := (hq.mem_iff t).mpr (by rw [h]; rfl)
    refine ⟨l, qinv_pcstep hq hmem ?_ .u5 rfl⟩
    rintro ⟨_, h5 | ⟨pr, h4⟩⟩
    · rw [h] at h5; cases h5
    · rw [h] at h4; cases h4
  | casFail h hq0 =>
    have hmem : t ∈ l := (hq.mem_iff t).mpr (by rw [h]; rfl)
    refine ⟨l, qinv_pcstep hq hmem ?_ .u3 rfl⟩
    rintro ⟨_, h5 | ⟨pr, h4⟩⟩
    · rw [h] at h5; cases h5
    · rw [h] at h4; cases h4
  | waitLink h hn =>
    have hmem : t ∈ l := (hq.mem_iff t).mpr (by rw [h]; rfl)
    refine ⟨l, qinv_pcstep hq hmem ?_ .u5 rfl⟩
    rintro ⟨_, h5 | ⟨pr, h4⟩⟩
    · rw [h] at h5; cases h5
    · rw [h] at h4; cases h4
  | casSuccess h hq0 =>
    have hmem : t ∈ l := (hq.mem_iff t).mpr (by rw [h]; rfl)
    obtain ⟨rest, rfl⟩ := eq_head hq hmem (by
      rintro ⟨_, h5 | ⟨pr, h4⟩⟩
      · rw [h] at h5; cases h5
      · rw [h] at h4; cases h4)
    have hrest : rest = [] := by
      rcases qseg_tail_cases hq.qlist.2 with ⟨h1, _, _⟩ | ⟨z, hz, htl⟩
      · exact h1
      · rw [hq0] at htl
        have hzt : z = t := (Option.some.inj htl).symm
        exact absurd (hzt ▸ hz) (qseg_not_mem hq.qlist.2)
    subst hrest
    refine ⟨[], rfl, ?_, ?_, ?_, ?_⟩
    · intro s
      refine iff_of_false (List.not_mem_nil s) ?_
      by_cases hs : s = t
      · subst hs
        show ¬ inQueuePC (upd c.pc s .idle s) = true
        rw [upd_same]
        simp [inQueuePC]
      · show ¬ inQueuePC (upd c.pc t .idle s) = true
        rw [upd_ne _ _ _ hs]
        intro habs
        have hmm := (hq.mem_iff s).mpr habs
        have : s = t := by simpa using hmm
        exact hs this
    · intro s hpc
      by_cases hs : s = t
      · subst hs
        have h2 : upd c.pc s .idle s = PC.l2 := hpc
        rw [upd_same] at h2
        cases h2
      · have h2 : upd c.pc t .idle s = PC.l2 := hpc
        rw [upd_ne _ _ _ hs] at h2
        exact hq.reset2 s h2
    · intro s hpc
      by_cases hs : s = t
      · subst hs
        have h2 : upd c.pc s .idle s = PC.l3 := hpc
        rw [upd_same] at h2
        cases h2
      · have h2 : upd c.pc t .idle s = PC.l3 := hpc
        rw [upd_ne _ _ _ hs] at h2
        exact hq.reset3 s h2
    · intro s hsm
      cases hsm
  | wake s h hn =>
    have hmem : t ∈ l := (hq.mem_iff t).mpr (by rw [h]; rfl)
    obtain ⟨rest, rfl⟩ := eq_head hq hmem (by
      rintro ⟨_, h5 | ⟨pr, h4⟩⟩
      · rw [h] at h5; cases h5
      · rw [h] at h4; cases h4)
    cases rest with
    | nil =>
      have hnone : c.next t = none := hq.qlist.2.2
      rw [hn] at hnone
      cases hnone
    | cons x rest2 =>
      obtain ⟨h1, h2, h3, hs2⟩ := hq.qlist.2
      have hpcx : c.pc x = .l5 ∧ c.next t = some x := by
        rcases h3 with ⟨ha, hb⟩ | ⟨ha, hb⟩
        · exact ⟨ha, hb⟩
        · rw [hn] at hb; cases hb
      have hsx : s = x := Option.some.inj (hn.symm.trans hpcx.2)
      subst hsx
      have htx : t ≠ s := fun he => absurd (he ▸ h1) (lt_irrefl _)
      have htrest : t ∉ s :: rest2 := by
        intro hm
        rcases List.mem_cons.mp hm with h0 | h0
        · exact htx h0
        · exact absurd (qseg_stamp_lt hs2 t h0) (by
            intro hlt
            exact absurd (h1.trans hlt) (lt_irrefl _))
      have hxrest : s ∉ rest2 := qseg_not_mem hs2
      refine ⟨s :: rest2, ⟨?_, ?_⟩, ?_, ?_, ?_, ?_⟩
      · show headPC (upd c.pc t .idle s) = true
        rw [upd_ne _ _ _ (fun he => htx he.symm), hpcx.1]
        rfl
      · refine qseg_frame hs2 rfl rfl rfl ?_
        intro y hy
        have hyt : y ≠ t := fun he => htrest (by rw [← he]; exact List.mem_cons_of_mem _ hy)
        have hyx : y ≠ s := fun he => hxrest (he ▸ hy)
        exact ⟨rfl, rfl, upd_ne _ _ _ hyx, upd_ne _ _ _ hyt⟩
      · intro s0
        by_cases hs0 : s0 = t
        · subst hs0
          refine iff_of_false htrest ?_
          show ¬ inQueuePC (upd c.pc s0 .idle s0) = true
          rw [upd_same]
          simp [inQueuePC]
        · have hmm : s0 ∈ s :: rest2 ↔ s0 ∈ t :: s :: rest2 := by
            constructor
            · exact fun hmm2 => List.mem_cons_of_mem _ hmm2
            · exact fun hmm2 => (List.mem_cons.mp hmm2).resolve_left hs0
          rw [hmm]
          show s0 ∈ t :: s :: rest2 ↔ inQueuePC (upd c.pc t .idle s0) = true
          rw [upd_ne _ _ _ hs0]
          exact hq.mem_iff s0
      · intro s0 hpc0
        by_cases hs0 : s0 = t
        · subst hs0
          have h2' : upd c.pc s0 .idle s0 = PC.l2 := hpc0
          rw [upd_same] at h2'
          cases h2'
        · have h2' : upd c.pc t .idle s0 = PC.l2 := hpc0
          rw [upd_ne _ _ _ hs0] at h2'
          exact hq.reset2 s0 h2'
      · intro s0 hpc0
        by_cases hs0 : s0 = t
        · subst hs0
          have h2' : upd c.pc s0 .idle s0 = PC.l3 := hpc0
          rw [upd_same] at h2'
          cases h2'
        · have h2' : upd c.pc t .idle s0 = PC.l3 := hpc0
          rw [upd_ne _ _ _ hs0] at h2'
          have hs0x : s0 ≠ s := by
            intro he
            rw [he, hpcx.1] at h2'
            cases h2'
          have hold := hq.reset3 s0 h2'
          refine ⟨hold.1, ?_⟩
          show upd c.unlocked s true s0 = false
          rw [upd_ne _ _ _ hs0x]
          exact hold.2
      · intro s0 hsm
        exact hq.stampsLt s0 (List.mem_cons_of_mem _ hsm)

/-- Every reachable configuration satisfies the queue invariant. -/
theorem reach_inv {c : Config} (h : Reachable c) : Inv c := by
  obtain ⟨c0, h0, hsteps⟩ := h
  induction hsteps with
  | refl => exact inv_init h0
  | tail _ hbc ih => exact inv_step ih hbc

/-- A thread that holds the lock is the head of the queue. -/
theorem inv_holds_head {c : Config} {l : List Tid} (hq : QInv c l) {t : Tid}
    (h : holdsPC (c.pc t) = true) : ∃ rest, l = t :: rest := by
  refine eq_head hq ((hq.mem_iff t).mpr (holds_inQueue h)) ?_
  rintro ⟨_, h5 | ⟨pr, h4⟩⟩
  · rw [h5] at h
    simp [holdsPC] at h
  · rw [h4] at h
    simp [holdsPC] at h

/-- Mutual exclusion, from the invariant. -/
theorem inv_mutex {c : Config} (hInv : Inv c) {t u : Tid}
    (ht : c.pc t = .cs) (hu : c.pc u = .cs) : t = u := by
  obtain ⟨l, hq⟩ := hInv
  obtain ⟨r1, he1⟩ := inv_holds_head hq (show holdsPC (c.pc t) = true by rw [ht]; rfl)
  obtain ⟨r2, he2⟩ := inv_holds_head hq (show holdsPC (c.pc u) = true by rw [hu]; rfl)
  rw [he1] at he2
  exact (List.cons.inj he2).1

/-- FIFO, from the invariant: a holder always has a smaller exchange stamp
than any waiter. -/
theorem inv_fifo {c : Config} (hInv : Inv c) {t1 t2 : Tid}
    (h2 : holdsPC (c.pc t2) = true) (h1 : waitPC (c.pc t1) = true) :
    c.stamp t2 < c.stamp t1 := by
  obtain ⟨l, hq⟩ := hInv
  obtain ⟨rest, rfl⟩ := inv_holds_head hq h2
  have hm1 : t1 ∈ t2 :: rest := (hq.mem_iff t1).mpr (wait_inQueue h1)
  have hne : t1 ≠ t2 := by
    intro he
    rw [he] at h1
    cases hpc : c.pc t2 <;> rw [hpc] at h1 h2 <;> simp [waitPC, holdsPC] at h1 h2
  have ht1r : t1 ∈ rest := (List.mem_cons.mp hm1).resolve_left hne
  exact qseg_stamp_lt hq.qlist.2 t1 ht1r

end Mcs

namespace Spin

/-- Program counter for `spin_lock`: outside, inside the test_and_set loop
of `lock()`, or inside the critical section. -/
inductive SPC where
  | idle
  | spin
  | cs
deriving DecidableEq

/-- Modelled from the spec: `cpu_backoff` is defined in bt2_locks.h, which is
not under src/.  Per §2/§3/§4.1 of the spec it is an ephemeral counter/delay
value constructed fresh each time a thread begins a new wait; its state is
modelled as a natural number. -/
def backoffFresh : Nat := 1

/-- Modelled from the spec: one `cpu_backoff.pause()` call briefly delays the
caller, with a delay that may increase across repeated calls; the growth is
modelled as doubling the counter. -/
def backoffPause (n : Nat) : Nat := n * 2

/-- Configuration of the spinlock system: the shared flag plus each thread's
program counter and the local `cpu_backoff` state of its current `lock()`
call. -/
structure SConfig where
  flag : Bool
  pc : Tid → SPC
  backoff : Tid → Nat

/-- One atomic step of `spin_lock::lock` / `spin_lock::unlock`
(bt2_locks.cpp): entering `lock()` constructs a fresh local `cpu_backoff`;
each `flag.test_and_set(acquire)` that returns true (flag already held)
calls `backoff.pause()` and retries; a `test_and_set` that returns false
claims the flag and `lock()` returns; `unlock()` runs
`flag.clear(release)`. -/
inductive Step : Tid → SConfig → SConfig → Prop where
  | callLock (t : Tid) (c : SConfig) (h : c.pc t = .idle) :
      Step t c { c with pc := upd c.pc t .spin,
                        backoff := upd c.backoff t backoffFresh }
  | tasFail (t : Tid) (c : SConfig) (h : c.pc t = .spin) (hf : c.flag = true) :
      Step t c { c with backoff := upd c.backoff t (backoffPause (c.backoff t)) }
  | tasSucc (t : Tid) (c : SConfig) (h : c.pc t = .spin) (hf : c.flag = false) :
      Step t c { c with flag := true, pc := upd c.pc t .cs }
  | unlockStep (t : Tid) (c : SConfig) (h : c.pc t = .cs) :
      Step t c { c with flag := false, pc := upd c.pc t .idle }

/-- Some thread takes a step. -/
def StepAny (c c' : SConfig) : Prop := ∃ t, Step t c c'

/-- Initially the flag is clear and every thread is outside. -/
def Init (c : SConfig) : Prop := c.flag = false ∧ ∀ t, c.pc t = .idle

/-- Configurations reachable from some initial configuration. -/
def Reachable (c : SConfig) : Prop :=
  ∃ c₀, Init c₀ ∧ Relation.ReflTransGen StepAny c₀ c

/-- Invariant: any thread in the critical section sees the flag set and is
the only such thread. -/
def SInv (c : SConfig) : Prop :=
  ∀ t, c.pc t = .cs → c.flag = true ∧ ∀ u, c.pc u = .cs → u = t

theorem sinv_init {c : SConfig} (h : Init c) : SInv c := by
  intro t ht
  rw [h.2 t] at ht
  cases ht

theorem sinv_step {c c' : SConfig} (hI : SInv c) (hs : StepAny c c') : SInv c' := by
  obtain ⟨t, hstep⟩ := hs
  cases hstep with
  | callLock h =>
    intro v hv
    have hvt : v ≠ t := by
      intro he
      subst he
      have h2 : upd c.pc v .spin v = SPC.cs := hv
      rw [upd_same] at h2
      cases h2
    have hv2 : c.pc v = .cs := by
      have h2 : upd c.pc t .spin v = SPC.cs := hv
      rwa [upd_ne _ _ _ hvt] at h2
    obtain ⟨hflag, huniq⟩ := hI v hv2
    refine ⟨hflag, ?_⟩
    intro u hu
    have hut : u ≠ t := by
      intro he
      subst he
      have h2 : upd c.pc u .spin u = SPC.cs := hu
      rw [upd_same] at h2
      cases h2
    have hu2 : c.pc u = .cs := by
      have h2 : upd c.pc t .spin u = SPC.cs := hu
      rwa [upd_ne _ _ _ hut] at h2
    exact huniq u hu2
  | tasFail h hf =>
    intro v hv
    exact hI v hv
  | tasSucc h hf =>
    intro v hv
    have hvt : v = t := by
      by_cases he : v = t
      · exact he
      · exfalso
        have h2 : upd c.pc t .cs v = SPC.cs := hv
        rw [upd_ne _ _ _ he] at h2
        obtain ⟨hflag, _⟩ := hI v h2
        rw [hf] at hflag
        cases hflag
    subst hvt
    refine ⟨rfl, ?_⟩
    intro u hu
    by_cases he : u = v
    · exact he
    · exfalso
      have h2 : upd c.pc v .cs u = SPC.cs := hu
      rw [upd_ne _ _ _ he] at h2
      obtain ⟨hflag, _⟩ := hI u h2
      rw [hf] at hflag
      cases hflag
  | unlockStep h =>
    intro v hv
    exfalso
    have hvt : v ≠ t := by
      intro he
      subst he
      have h2 : upd c.pc v .idle v = SPC.cs := hv
      rw [upd_same] at h2
      cases h2
    have hv2 : c.pc v = .cs := by
      have h2 : upd c.pc t .idle v = SPC.cs := hv
      rwa [upd_ne _ _ _ hvt] at h2
    obtain ⟨_, huniq⟩ := hI t h
    exact hvt (huniq v hv2)

/-- Every reachable spinlock configuration satisfies the invariant. -/
theorem sreach_inv {c : SConfig} (h : Reachable c) : SInv c := by
  obtain ⟨c0, h0, hsteps⟩ := h
  induction hsteps with
  | refl => exact sinv_init h0
  | tail _ hbc ih => exact sinv_step ih hbc

end Spin

namespace Mcs

/-- Start of the concrete witness run: lock free, both threads outside. -/
def w0 : Config :=
  { tail := none, next := fun _ => none, unlocked := fun _ => false,
    pc := fun _ => .idle, stamp := fun _ => 0, clock := 0 }

def w1 : Config := { w0 with pc := upd w0.pc 0 .l1 }

def w2 : Config := { w1 with next := upd w1.next 0 none, pc := upd w1.pc 0 .l2 }

def w3 : Config :=
  { w2 with unlocked := upd w2.unlocked 0 false, pc := upd w2.pc 0 .l3 }

def w4 : Config :=
  { w3 with tail := some 0, stamp := upd w3.stamp 0 w3.clock,
            clock := w3.clock + 1, pc := upd w3.pc 0 .l6 }

def w5 : Config := { w4 with pc := upd w4.pc 0 .cs }

def w6 : Config := { w5 with pc := upd w5.pc 1 .l1 }

def w7 : Config := { w6 with next := upd w6.next 1 none, pc := upd w6.pc 1 .l2 }

def w8 : Config :=
  { w7 with unlocked := upd w7.unlocked 1 false, pc := upd w7.pc 1 .l3 }

def w9 : Config :=
  { w8 with tail := some 1, stamp := upd w8.stamp 1 w8.clock,
            clock := w8.clock + 1, pc := upd w8.pc 1 (.l4 0) }

theorem w5_chain : Relation.ReflTransGen StepAny w0 w5 :=
  Relation.ReflTransGen.tail
    (Relation.ReflTransGen.tail
      (Relation.ReflTransGen.tail
        (Relation.ReflTransGen.tail
          (Relation.ReflTransGen.tail Relation.ReflTransGen.refl
            ⟨0, Step.call 0 w0 rfl⟩)
          ⟨0, Step.resetNext 0 w1 rfl⟩)
        ⟨0, Step.resetUnlocked 0 w2 rfl⟩)
      ⟨0, Step.exchFree 0 w3 rfl rfl⟩)
    ⟨0, Step.acqLoad 0 w4 rfl⟩

theorem w9_chain : Relation.ReflTransGen StepAny w0 w9 :=
  Relation.ReflTransGen.tail
    (Relation.ReflTransGen.tail
      (Relation.ReflTransGen.tail
        (Relation.ReflTransGen.tail w5_chain ⟨1, Step.call 1 w5 rfl⟩)
        ⟨1, Step.resetNext 1 w6 rfl⟩)
      ⟨1, Step.resetUnlocked 1 w7 rfl⟩)
    ⟨1, Step.exchQueued 1 w8 0 rfl rfl⟩

theorem w5_reach : Reachable w5 := ⟨w0, ⟨rfl, fun _ => rfl⟩, w5_chain⟩

theorem w9_reach : Reachable w9 := ⟨w0, ⟨rfl, fun _ => rfl⟩, w9_chain⟩

end Mcs

namespace Spin

/-- Start of the concrete spinlock witness run. -/
def sw0 : SConfig := { flag := false, pc := fun _ => .idle, backoff := fun _ => 0 }

def sw1 : SConfig :=
  { sw0 with pc := upd sw0.pc 0 .spin, backoff := upd sw0.backoff 0 backoffFresh }

def sw2 : SConfig := { sw1 with flag := true, pc := upd sw1.pc 0 .cs }

theorem sw2_reach : Reachable sw2 :=
  ⟨sw0, ⟨rfl, fun _ => rfl⟩,
    Relation.ReflTransGen.tail
      (Relation.ReflTransGen.tail Relation.ReflTransGen.refl
        ⟨0, Step.callLock 0 sw0 rfl⟩)
      ⟨0, Step.tasSucc 0 sw1 rfl rfl⟩⟩

end Spin

/-- C1: for any number of threads repeatedly entering a critical section
bracketed by lock()/unlock() of either primitive (mcs_lock or spin_lock),
at most one thread is ever inside the critical section at a time: in every
reachable configuration of either transition system, any two threads whose
pc is inside the critical section are equal. -/
theorem c1_mutual_exclusion :
    (∀ c : Mcs.Config, Mcs.Reachable c → ∀ t u : Tid,
        c.pc t = Mcs.PC.cs → c.pc u = Mcs.PC.cs → t = u) ∧
    (∀ c : Spin.SConfig, Spin.Reachable c → ∀ t u : Tid,
        c.pc t = Spin.SPC.cs → c.pc u = Spin.SPC.cs → t = u) := by
  constructor
  · intro c hreach t u ht hu
    exact Mcs.inv_mutex (Mcs.reach_inv hreach) ht hu
  · intro c hreach t u ht hu
    obtain ⟨_, huniq⟩ := Spin.sreach_inv hreach t ht
    exact (huniq u hu).symm

/-- Witness for C1: a concrete reachable MCS configuration and a concrete
reachable spinlock configuration with a thread in the critical section; the
conclusions are obtained by applying the theorem there. -/
theorem c1_mutual_exclusion_witness :
    Mcs.Reachable Mcs.w5 ∧ Mcs.w5.pc 0 = Mcs.PC.cs ∧
    Spin.Reachable Spin.sw2 ∧ Spin.sw2.pc 0 = Spin.SPC.cs ∧
    (0 : Tid) = 0 ∧ (0 : Tid) = 0 :=
  ⟨Mcs.w5_reach, rfl, Spin.sw2_reach, rfl,
    c1_mutual_exclusion.1 Mcs.w5 Mcs.w5_reach 0 0 rfl rfl,
    c1_mutual_exclusion.2 Spin.sw2 Spin.sw2_reach 0 0 rfl rfl⟩

/-- C2: the MCS lock grants the lock in strict FIFO order of enqueueing.
State-level formalisation: the ghost stamp of a thread records the moment of
its tail exchange in `lock()`, so stamps compare as the enqueue order.  In
every reachable configuration, a thread `t2` that has been granted the lock
(holdsPC) has a strictly smaller stamp than any thread `t1` still waiting
(waitPC).  Hence a thread that tail-exchanged first can never still be
waiting while a later-exchanging thread holds the lock: grants follow
exchange order, i.e. if T1's exchange happens strictly before T2's, T1 is
granted the lock before T2. -/
theorem c2_mcs_fifo (c : Mcs.Config) (hreach : Mcs.Reachable c) (t1 t2 : Tid)
    (h2 : Mcs.holdsPC (c.pc t2) = true) (h1 : Mcs.waitPC (c.pc t1) = true) :
    c.stamp t2 < c.stamp t1 :=
  Mcs.inv_fifo (Mcs.reach_inv hreach) h2 h1

/-- Witness for C2: in the concrete run, thread 0 holds the lock (stamp 0)
and thread 1 waits at the link step (stamp 1); the theorem yields 0 < 1. -/
theorem c2_mcs_fifo_witness :
    Mcs.Reachable Mcs.w9 ∧ Mcs.holdsPC (Mcs.w9.pc 0) = true ∧
    Mcs.waitPC (Mcs.w9.pc 1) = true ∧ Mcs.w9.stamp 0 < Mcs.w9.stamp 1 :=
  ⟨Mcs.w9_reach, rfl, rfl, c2_mcs_fifo Mcs.w9 Mcs.w9_reach 1 0 rfl rfl⟩

/-- C4: every call to mcs_lock::lock() first resets the calling thread's node
(next unset at l1, unlocked false at l2), then atomically exchanges the
shared tail with a reference to this node; if the previous tail was empty,
lock() proceeds straight to the final load and returns without entering any
wait pc (l4/l5); otherwise it stores this node into pred->next and can leave
the l5 busy-wait only once its own unlocked flag is true.  Stated as the
complete inversion of the step relation at each lock() pc. -/
theorem c4_lock_structure :
    (∀ (t : Tid) (c c' : Mcs.Config), Mcs.Step t c c' → c.pc t = Mcs.PC.l1 →
      c' = { c with next := upd c.next t none, pc := upd c.pc t Mcs.PC.l2 }) ∧
    (∀ (t : Tid) (c c' : Mcs.Config), Mcs.Step t c c' → c.pc t = Mcs.PC.l2 →
      c' = { c with unlocked := upd c.unlocked t false,
                    pc := upd c.pc t Mcs.PC.l3 }) ∧
    (∀ (t : Tid) (c c' : Mcs.Config), Mcs.Step t c c' → c.pc t = Mcs.PC.l3 →
      c.tail = none →
      c' = { c with tail := some t, stamp := upd c.stamp t c.clock,
                    clock := c.clock + 1, pc := upd c.pc t Mcs.PC.l6 }) ∧
    (∀ (t : Tid) (c c' : Mcs.Config), Mcs.Step t c c' → c.pc t = Mcs.PC.l6 →
      c' = { c with pc := upd c.pc t Mcs.PC.cs }) ∧
    (∀ (t p : Tid) (c c' : Mcs.Config), Mcs.Step t c c' → c.pc t = Mcs.PC.l3 →
      c.tail = some p →
      c' = { c with tail := some t, stamp := upd c.stamp t c.clock,
                    clock := c.clock + 1, pc := upd c.pc t (Mcs.PC.l4 p) }) ∧
    (∀ (t p : Tid) (c c' : Mcs.Config), Mcs.Step t c c' → c.pc t = Mcs.PC.l4 p →
      c' = { c with next := upd c.next p (some t), pc := upd c.pc t Mcs.PC.l5 }) ∧
    (∀ (t : Tid) (c c' : Mcs.Config), c.pc t = Mcs.PC.l5 → c.unlocked t = false →
      ¬ Mcs.Step t c c') := by
  refine ⟨?_, ?_, ?_, ?_, ?_, ?_, ?_⟩
  · intro t c c' hstep hpc
    cases hstep <;> simp_all [Mcs.spin_exits]
  · intro t c c' hstep hpc
    cases hstep <;> simp_all [Mcs.spin_exits]
  · intro t c c' hstep hpc htl
    cases hstep <;> simp_all [Mcs.spin_exits]
  · intro t c c' hstep hpc
    cases hstep <;> simp_all [Mcs.spin_exits]
  · intro t p c c' hstep hpc htl
    cases hstep <;> simp_all [Mcs.spin_exits]
  · intro t p c c' hstep hpc
    cases hstep <;> simp_all [Mcs.spin_exits]
  · intro t c c' hpc hu hstep
    cases hstep <;> simp_all [Mcs.spin_exits]

namespace Mcs

/-- A configuration with every pc at `π`, tail `tl` and every next link `nx`;
used to instantiate the step-inversion theorems. -/
def cfgAt (π : PC) (tl : Option Tid) (nx : Option Tid) : Config :=
  { tail := tl, next := fun _ => nx, unlocked := fun _ => false,
    pc := fun _ => π, stamp := fun _ => 0, clock := 0 }

def k1 : Config := cfgAt .l1 none none

def k1s : Config := { k1 with next := upd k1.next 0 none, pc := upd k1.pc 0 .l2 }

def k2 : Config := cfgAt .l2 none none

def k2s : Config :=
  { k2 with unlocked := upd k2.unlocked 0 false, pc := upd k2.pc 0 .l3 }

def k3 : Config := cfgAt .l3 none none

def k3s : Config :=
  { k3 with tail := some 0, stamp := upd k3.stamp 0 k3.clock,
            clock := k3.clock + 1, pc := upd k3.pc 0 .l6 }

def k6 : Config := cfgAt .l6 none none

def k6s : Config := { k6 with pc := upd k6.pc 0 .cs }

def k3q : Config := cfgAt .l3 (some 1) none

def k3qs : Config :=
  { k3q with tail := some 0, stamp := upd k3q.stamp 0 k3q.clock,
             clock := k3q.clock + 1, pc := upd k3q.pc 0 (.l4 1) }

def k4 : Config := cfgAt (.l4 1) (some 0) none

def k4s : Config := { k4 with next := upd k4.next 1 (some 0), pc := upd k4.pc 0 .l5 }

def k5 : Config := cfgAt .l5 (some 0) none

end Mcs

/-- Witness for C4: each inversion conjunct instantiated at a concrete step
of thread 0, with its hypotheses discharged there. -/
theorem c4_lock_structure_witness :
    (Mcs.Step 0 Mcs.k1 Mcs.k1s ∧ Mcs.k1.pc 0 = Mcs.PC.l1 ∧
      Mcs.k1s = { Mcs.k1 with next := upd Mcs.k1.next 0 none,
                              pc := upd Mcs.k1.pc 0 Mcs.PC.l2 }) ∧
    (Mcs.Step 0 Mcs.k2 Mcs.k2s ∧ Mcs.k2.pc 0 = Mcs.PC.l2 ∧
      Mcs.k2s = { Mcs.k2 with unlocked := upd Mcs.k2.unlocked 0 false,
                              pc := upd Mcs.k2.pc 0 Mcs.PC.l3 }) ∧
    (Mcs.Step 0 Mcs.k3 Mcs.k3s ∧ Mcs.k3.pc 0 = Mcs.PC.l3 ∧ Mcs.k3.tail = none ∧
      Mcs.k3s = { Mcs.k3 with tail := some 0,
                              stamp := upd Mcs.k3.stamp 0 Mcs.k3.clock,
                              clock := Mcs.k3.clock + 1,
                              pc := upd Mcs.k3.pc 0 Mcs.PC.l6 }) ∧
    (Mcs.Step 0 Mcs.k6 Mcs.k6s ∧ Mcs.k6.pc 0 = Mcs.PC.l6 ∧
      Mcs.k6s = { Mcs.k6 with pc := upd Mcs.k6.pc 0 Mcs.PC.cs }) ∧
    (Mcs.Step 0 Mcs.k3q Mcs.k3qs ∧ Mcs.k3q.pc 0 = Mcs.PC.l3 ∧
      Mcs.k3q.tail = some 1 ∧
      Mcs.k3qs = { Mcs.k3q with tail := some 0,
                                stamp := upd Mcs.k3q.stamp 0 Mcs.k3q.clock,
                                clock := Mcs.k3q.clock + 1,
                                pc := upd Mcs.k3q.pc 0 (Mcs.PC.l4 1) }) ∧
    (Mcs.Step 0 Mcs.k4 Mcs.k4s ∧ Mcs.k4.pc 0 = Mcs.PC.l4 1 ∧
      Mcs.k4s = { Mcs.k4 with next := upd Mcs.k4.next 1 (some 0),
                              pc := upd Mcs.k4.pc 0 Mcs.PC.l5 }) ∧
    (Mcs.k5.pc 0 = Mcs.PC.l5 ∧ Mcs.k5.unlocked 0 = false ∧
      ¬ Mcs.Step 0 Mcs.k5 Mcs.k5) :=
  ⟨⟨Mcs.Step.resetNext 0 Mcs.k1 rfl, rfl,
      c4_lock_structure.1 0 Mcs.k1 Mcs.k1s (Mcs.Step.resetNext 0 Mcs.k1 rfl) rfl⟩,
    ⟨Mcs.Step.resetUnlocked 0 Mcs.k2 rfl, rfl,
      c4_lock_structure.2.1 0 Mcs.k2 Mcs.k2s
        (Mcs.Step.resetUnlocked 0 Mcs.k2 rfl) rfl⟩,
    ⟨Mcs.Step.exchFree 0 Mcs.k3 rfl rfl, rfl, rfl,
      c4_lock_structure.2.2.1 0 Mcs.k3 Mcs.k3s
        (Mcs.Step.exchFree 0 Mcs.k3 rfl rfl) rfl rfl⟩,
    ⟨Mcs.Step.acqLoad 0 Mcs.k6 rfl, rfl,
      c4_lock_structure.2.2.2.1 0 Mcs.k6 Mcs.k6s
        (Mcs.Step.acqLoad 0 Mcs.k6 rfl) rfl⟩,
    ⟨Mcs.Step.exchQueued 0 Mcs.k3q 1 rfl rfl, rfl, rfl,
      c4_lock_structure.2.2.2.2.1 0 1 Mcs.k3q Mcs.k3qs
        (Mcs.Step.exchQueued 0 Mcs.k3q 1 rfl rfl) rfl rfl⟩,
    ⟨Mcs.Step.link 0 Mcs.k4 1 rfl, rfl,
      c4_lock_structure.2.2.2.2.2.1 0 1 Mcs.k4 Mcs.k4s
        (Mcs.Step.link 0 Mcs.k4 1 rfl) rfl⟩,
    ⟨rfl, rfl, c4_lock_structure.2.2.2.2.2.2 0 Mcs.k5 Mcs.k5 rfl rfl⟩⟩

/-- C5: in mcs_lock::unlock(), when the caller's node has `next` unset, the
code moves to the tail CAS; when the CAS of the tail from this node to empty
succeeds, unlock() returns immediately (pc back to idle) with the tail left
empty, and writes no node's `next` or `unlocked` flag. -/
theorem c5_unlock_fast_path :
    (∀ (t : Tid) (c c' : Mcs.Config), Mcs.Step t c c' → c.pc t = Mcs.PC.u1 →
      c.next t = none → c' = { c with pc := upd c.pc t Mcs.PC.u2 }) ∧
    (∀ (t : Tid) (c c' : Mcs.Config), Mcs.Step t c c' → c.pc t = Mcs.PC.u2 →
      c.tail = some t →
      c' = { c with tail := none, pc := upd c.pc t Mcs.PC.idle } ∧
      c'.tail = none ∧ (∀ s, c'.unlocked s = c.unlocked s) ∧
      (∀ s, c'.next s = c.next s)) := by
  constructor
  · intro t c c' hstep hpc hn
    cases hstep <;> simp_all [Mcs.spin_exits]
  · intro t c c' hstep hpc htl
    cases hstep <;> simp_all [Mcs.spin_exits]

/-- C6: in mcs_lock::unlock(), if the tail CAS fails the thread moves to the
`spin_while_eq(node.next, nullptr)` wait rather than returning; if `next`
was already set at the top of unlock() it moves directly to the wake store;
the wait pc can be left only once `next` is non-null; and the wake store
sets exactly the linked successor's `unlocked` flag to true before
returning.  No transition leaves unlock() from u2/u3/u5 other than these. -/
theorem c6_unlock_waits_for_successor :
    (∀ (t : Tid) (c c' : Mcs.Config), Mcs.Step t c c' → c.pc t = Mcs.PC.u2 →
      c.tail ≠ some t → c' = { c with pc := upd c.pc t Mcs.PC.u3 }) ∧
    (∀ (t s : Tid) (c c' : Mcs.Config), Mcs.Step t c c' → c.pc t = Mcs.PC.u1 →
      c.next t = some s → c' = { c with pc := upd c.pc t Mcs.PC.u5 }) ∧
    (∀ (t : Tid) (c c' : Mcs.Config), c.pc t = Mcs.PC.u3 → c.next t = none →
      ¬ Mcs.Step t c c') ∧
    (∀ (t : Tid) (c c' : Mcs.Config), Mcs.Step t c c' → c.pc t = Mcs.PC.u3 →
      c.next t ≠ none → c' = { c with pc := upd c.pc t Mcs.PC.u5 }) ∧
    (∀ (t s : Tid) (c c' : Mcs.Config), Mcs.Step t c c' → c.pc t = Mcs.PC.u5 →
      c.next t = some s →
      c' = { c with unlocked := upd c.unlocked s true,
                    pc := upd c.pc t Mcs.PC.idle }) ∧
    (∀ (t : Tid) (c c' : Mcs.Config), c.pc t = Mcs.PC.u5 → c.next t = none →
      ¬ Mcs.Step t c c') := by
  refine ⟨?_, ?_, ?_, ?_, ?_, ?_⟩
  · intro t c c' hstep hpc htl
    cases hstep <;> simp_all [Mcs.spin_exits]
  · intro t s c c' hstep hpc hn
    cases hstep <;> simp_all [Mcs.spin_exits]
  · intro t c c' hpc hn hstep
    cases hstep <;> simp_all [Mcs.spin_exits]
  · intro t c c' hstep hpc hn
    cases hstep <;> simp_all [Mcs.spin_exits]
  · intro t s c c' hstep hpc hn
    cases hstep <;> simp_all [Mcs.spin_exits]
  · intro t c c' hpc hn hstep
    cases hstep <;> simp_all [Mcs.spin_exits]

namespace Mcs

def ku1 : Config := cfgAt .u1 (some 0) none

def ku1s : Config := { ku1 with pc := upd ku1.pc 0 .u2 }

def ku2 : Config := cfgAt .u2 (some 0) none

def ku2s : Config := { ku2 with tail := none, pc := upd ku2.pc 0 .idle }

def ku2f : Config := cfgAt .u2 none none

def ku2fs : Config := { ku2f with pc := upd ku2f.pc 0 .u3 }

def ku1n : Config := cfgAt .u1 (some 0) (some 1)

def ku1ns : Config := { ku1n with pc := upd ku1n.pc 0 .u5 }

def ku3 : Config := cfgAt .u3 none (some 1)

def ku3s : Config := { ku3 with pc := upd ku3.pc 0 .u5 }

def ku3n : Config := cfgAt .u3 none none

def ku5 : Config := cfgAt .u5 none (some 1)

def ku5s : Config :=
  { ku5 with unlocked := upd ku5.unlocked 1 true, pc := upd ku5.pc 0 .idle }

def ku5n : Config := cfgAt .u5 none none

end Mcs

/-- Witness for C5: the two fast-path conjuncts instantiated at concrete
unlock steps of thread 0. -/
theorem c5_unlock_fast_path_witness :
    (Mcs.Step 0 Mcs.ku1 Mcs.ku1s ∧ Mcs.ku1.pc 0 = Mcs.PC.u1 ∧
      Mcs.ku1.next 0 = none ∧
      Mcs.ku1s = { Mcs.ku1 with pc := upd Mcs.ku1.pc 0 Mcs.PC.u2 }) ∧
    (Mcs.Step 0 Mcs.ku2 Mcs.ku2s ∧ Mcs.ku2.pc 0 = Mcs.PC.u2 ∧
      Mcs.ku2.tail = some 0 ∧
      (Mcs.ku2s = { Mcs.ku2 with tail := none,
                                 pc := upd Mcs.ku2.pc 0 Mcs.PC.idle } ∧
        Mcs.ku2s.tail = none ∧ (∀ s, Mcs.ku2s.unlocked s = Mcs.ku2.unlocked s) ∧
        (∀ s, Mcs.ku2s.next s = Mcs.ku2.next s))) :=
  ⟨⟨Mcs.Step.checkNextNone 0 Mcs.ku1 rfl rfl, rfl, rfl,
      c5_unlock_fast_path.1 0 Mcs.ku1 Mcs.ku1s
        (Mcs.Step.checkNextNone 0 Mcs.ku1 rfl rfl) rfl rfl⟩,
    ⟨Mcs.Step.casSuccess 0 Mcs.ku2 rfl rfl, rfl, rfl,
      c5_unlock_fast_path.2 0 Mcs.ku2 Mcs.ku2s
        (Mcs.Step.casSuccess 0 Mcs.ku2 rfl rfl) rfl rfl⟩⟩

/-- Witness for C6: each conjunct instantiated at a concrete unlock step of
thread 0 (with thread 1 as the linked successor). -/
theorem c6_unlock_waits_for_successor_witness :
    (Mcs.Step 0 Mcs.ku2f Mcs.ku2fs ∧ Mcs.ku2f.pc 0 = Mcs.PC.u2 ∧
      Mcs.ku2f.tail ≠ some 0 ∧
      Mcs.ku2fs = { Mcs.ku2f with pc := upd Mcs.ku2f.pc 0 Mcs.PC.u3 }) ∧
    (Mcs.Step 0 Mcs.ku1n Mcs.ku1ns ∧ Mcs.ku1n.pc 0 = Mcs.PC.u1 ∧
      Mcs.ku1n.next 0 = some 1 ∧
      Mcs.ku1ns = { Mcs.ku1n with pc := upd Mcs.ku1n.pc 0 Mcs.PC.u5 }) ∧
    (Mcs.ku3n.pc 0 = Mcs.PC.u3 ∧ Mcs.ku3n.next 0 = none ∧
      ¬ Mcs.Step 0 Mcs.ku3n Mcs.ku3n) ∧
    (Mcs.Step 0 Mcs.ku3 Mcs.ku3s ∧ Mcs.ku3.pc 0 = Mcs.PC.u3 ∧
      Mcs.ku3.next 0 ≠ none ∧
      Mcs.ku3s = { Mcs.ku3 with pc := upd Mcs.ku3.pc 0 Mcs.PC.u5 }) ∧
    (Mcs.Step 0 Mcs.ku5 Mcs.ku5s ∧ Mcs.ku5.pc 0 = Mcs.PC.u5 ∧
      Mcs.ku5.next 0 = some 1 ∧
      Mcs.ku5s = { Mcs.ku5 with unlocked := upd Mcs.ku5.unlocked 1 true,
                                pc := upd Mcs.ku5.pc 0 Mcs.PC.idle }) ∧
    (Mcs.ku5n.pc 0 = Mcs.PC.u5 ∧ Mcs.ku5n.next 0 = none ∧
      ¬ Mcs.Step 0 Mcs.ku5n Mcs.ku5n) :=
  ⟨⟨Mcs.Step.casFail 0 Mcs.ku2f rfl (by decide), rfl, by decide,
      c6_unlock_waits_for_successor.1 0 Mcs.ku2f Mcs.ku2fs
        (Mcs.Step.casFail 0 Mcs.ku2f rfl (by decide)) rfl (by decide)⟩,
    ⟨Mcs.Step.checkNextSome 0 Mcs.ku1n 1 rfl rfl, rfl, rfl,
      c6_unlock_waits_for_successor.2.1 0 1 Mcs.ku1n Mcs.ku1ns
        (Mcs.Step.checkNextSome 0 Mcs.ku1n 1 rfl rfl) rfl rfl⟩,
    ⟨rfl, rfl,
      c6_unlock_waits_for_successor.2.2.1 0 Mcs.ku3n Mcs.ku3n rfl rfl⟩,
    ⟨Mcs.Step.waitLink 0 Mcs.ku3 rfl (fun h => Option.noConfusion h), rfl, by decide,
      c6_unlock_waits_for_successor.2.2.2.1 0 Mcs.ku3 Mcs.ku3s
        (Mcs.Step.waitLink 0 Mcs.ku3 rfl (fun h => Option.noConfusion h)) rfl (by decide)⟩,
    ⟨Mcs.Step.wake 0 Mcs.ku5 1 rfl rfl, rfl, rfl,
      c6_unlock_waits_for_successor.2.2.2.2.1 0 1 Mcs.ku5 Mcs.ku5s
        (Mcs.Step.wake 0 Mcs.ku5 1 rfl rfl) rfl rfl⟩,
    ⟨rfl, rfl,
      c6_unlock_waits_for_successor.2.2.2.2.2 0 Mcs.ku5n Mcs.ku5n rfl rfl⟩⟩

/-- C7: spin_lock::lock() repeatedly attempts flag.test_and_set; each failed
attempt invokes the backoff pause and retries (pc stays in the loop); it
reaches the critical section only via a successful test-and-set of the flag
from false to true; and the backoff state is freshly reset when a lock()
call begins (the local cpu_backoff is constructed at the top of lock()). -/
theorem c7_spin_lock :
    (∀ (t : Tid) (c c' : Spin.SConfig), Spin.Step t c c' →
      c.pc t = Spin.SPC.idle →
      c' = { c with pc := upd c.pc t Spin.SPC.spin,
                    backoff := upd c.backoff t Spin.backoffFresh }) ∧
    (∀ (t : Tid) (c c' : Spin.SConfig), Spin.Step t c c' →
      c.pc t = Spin.SPC.spin → c.flag = true →
      c' = { c with backoff := upd c.backoff t (Spin.backoffPause (c.backoff t)) }) ∧
    (∀ (t : Tid) (c c' : Spin.SConfig), Spin.Step t c c' →
      c.pc t = Spin.SPC.spin → c.flag = false →
      c' = { c with flag := true, pc := upd c.pc t Spin.SPC.cs }) ∧
    (∀ (t : Tid) (c c' : Spin.SConfig), Spin.Step t c c' →
      c.pc t = Spin.SPC.spin → c'.pc t = Spin.SPC.cs →
      c.flag = false ∧ c'.flag = true) := by
  refine ⟨?_, ?_, ?_, ?_⟩
  · intro t c c' hstep hpc
    cases hstep <;> simp_all
  · intro t c c' hstep hpc hf
    cases hstep <;> simp_all
  · intro t c c' hstep hpc hf
    cases hstep <;> simp_all
  · intro t c c' hstep hpc hpc'
    cases hstep <;> simp_all

namespace Spin

/-- A spinlock configuration with every pc at `π`, flag `fl`, backoff `b`. -/
def scfgAt (π : SPC) (fl : Bool) (b : Nat) : SConfig :=
  { flag := fl, pc := fun _ => π, backoff := fun _ => b }

def sp0 : SConfig := scfgAt .idle false 7

def sp0s : SConfig :=
  { sp0 with pc := upd sp0.pc 0 .spin, backoff := upd sp0.backoff 0 backoffFresh }

def spF : SConfig := scfgAt .spin true 3

def spFs : SConfig :=
  { spF with backoff := upd spF.backoff 0 (backoffPause (spF.backoff 0)) }

def spS : SConfig := scfgAt .spin false 3

def spSs : SConfig := { spS with flag := true, pc := upd spS.pc 0 .cs }

end Spin

/-- Witness for C7: the four conjuncts instantiated at concrete steps of
thread 0 (fresh call, failed test-and-set, successful test-and-set). -/
theorem c7_spin_lock_witness :
    (Spin.Step 0 Spin.sp0 Spin.sp0s ∧ Spin.sp0.pc 0 = Spin.SPC.idle ∧
      Spin.sp0s = { Spin.sp0 with pc := upd Spin.sp0.pc 0 Spin.SPC.spin,
                                  backoff := upd Spin.sp0.backoff 0 Spin.backoffFresh }) ∧
    (Spin.Step 0 Spin.spF Spin.spFs ∧ Spin.spF.pc 0 = Spin.SPC.spin ∧
      Spin.spF.flag = true ∧
      Spin.spFs = { Spin.spF with
        backoff := upd Spin.spF.backoff 0 (Spin.backoffPause (Spin.spF.backoff 0)) }) ∧
    (Spin.Step 0 Spin.spS Spin.spSs ∧ Spin.spS.pc 0 = Spin.SPC.spin ∧
      Spin.spS.flag = false ∧
      Spin.spSs = { Spin.spS with flag := true,
                                  pc := upd Spin.spS.pc 0 Spin.SPC.cs }) ∧
    (Spin.spS.flag = false ∧ Spin.spSs.flag = true) :=
  ⟨⟨Spin.Step.callLock 0 Spin.sp0 rfl, rfl,
      c7_spin_lock.1 0 Spin.sp0 Spin.sp0s (Spin.Step.callLock 0 Spin.sp0 rfl) rfl⟩,
    ⟨Spin.Step.tasFail 0 Spin.spF rfl rfl, rfl, rfl,
      c7_spin_lock.2.1 0 Spin.spF Spin.spFs
        (Spin.Step.tasFail 0 Spin.spF rfl rfl) rfl rfl⟩,
    ⟨Spin.Step.tasSucc 0 Spin.spS rfl rfl, rfl, rfl,
      c7_spin_lock.2.2.1 0 Spin.spS Spin.spSs
        (Spin.Step.tasSucc 0 Spin.spS rfl rfl) rfl rfl⟩,
    c7_spin_lock.2.2.2 0 Spin.spS Spin.spSs
      (Spin.Step.tasSucc 0 Spin.spS rfl rfl) rfl rfl⟩

namespace Spin

/-- spin_lock::unlock() (bt2_locks.cpp) runs `flag.clear(release)`: the new
flag value as a function of the old one.  It is unconditionally false: the
old value is not inspected, so there is no branch, no check of which thread
(if any) holds the lock, and no error result. -/
def clearFlag : Bool → Bool := fun _ => false

end Spin

namespace Mcs

/-- Possible outcomes of the branch structure of mcs_lock::unlock(): the CAS
released the lock with no successor, or the thread must wait for the link,
or it wakes the linked successor.  The type has no error constructor,
mirroring that the source has no error path. -/
inductive UnlockOutcome where
  | released
  | mustWait
  | wakeSucc (s : Tid)
deriving DecidableEq

/-- The branch taken by mcs_lock::unlock() as a function of the caller's node
`next` field and the shared tail (bt2_locks.cpp): if `next` is unset, try
CAS(tail: self -> empty); on success return, on failure wait for the link;
if `next` is set, store true into the successor's `unlocked`.  Every input
is accepted: nothing checks that the caller actually holds the lock. -/
def unlockBranch (nxt : Option Tid) (tail : Option Tid) (self : Tid) :
    UnlockOutcome :=
  match nxt with
  | none => if tail = some self then .released else .mustWait
  | some s => .wakeSucc s

end Mcs

/-- C8: unlock() of both primitives performs no runtime precondition check
and never reports an error.  spin_lock::unlock unconditionally clears the
flag whatever its current value (so whoever holds the lock, or nobody, the
effect is the same, and a double unlock is silent); mcs_lock::unlock's
branch function is total on all node/tail states and its outcome type has
no error: an unlock without holding (empty tail, next unset) silently
proceeds to wait rather than reporting anything. -/
theorem c8_no_precondition_check :
    (∀ b : Bool, Spin.clearFlag b = false) ∧
    (∀ b b' : Bool, Spin.clearFlag b = Spin.clearFlag b') ∧
    (∀ (nxt tl : Option Tid) (self : Tid),
      Mcs.unlockBranch nxt tl self = Mcs.UnlockOutcome.released ∨
      Mcs.unlockBranch nxt tl self = Mcs.UnlockOutcome.mustWait ∨
      ∃ s, Mcs.unlockBranch nxt tl self = Mcs.UnlockOutcome.wakeSucc s) ∧
    Mcs.unlockBranch none none 0 = Mcs.UnlockOutcome.mustWait ∧
    Spin.clearFlag false = false := by
  refine ⟨fun _ => rfl, fun _ _ => rfl, ?_, rfl, rfl⟩
  intro nxt tl self
  cases nxt with
  | none =>
    by_cases h : tl = some self
    · exact Or.inl (by simp [Mcs.unlockBranch, h])
    · exact Or.inr (Or.inl (by simp [Mcs.unlockBranch, h]))
  | some s => exact Or.inr (Or.inr ⟨s, rfl⟩)

namespace MemOrd

/-- C++11 memory orders, as written in bt2_locks.cpp. -/
inductive MemOrder where
  | relaxed
  | consume
  | acquire
  | release
  | acq_rel
  | seq_cst
deriving DecidableEq

/-- Whether an operation with this order has an acquire side; for a
read-modify-write the read side is acquire exactly when the order includes
acquire (C++11: a release RMW has a relaxed read side). -/
def MemOrder.isAcquire : MemOrder → Bool
  | .acquire | .acq_rel | .seq_cst => true
  | _ => false

/-- Whether an operation with this order has a release side. -/
def MemOrder.isRelease : MemOrder → Bool
  | .release | .acq_rel | .seq_cst => true
  | _ => false

/-- A read synchronizes-with a write on the same atomic object only if the
write is a release operation and the read an acquire operation
(C++11 [intro.races]/[atomics.order]). -/
def canSyncWith (writeOrder readOrder : MemOrder) : Bool :=
  writeOrder.isRelease && readOrder.isAcquire

/-- The atomic objects accessed by the two primitives. -/
inductive Loc where
  | tailQ
  | nodeUnlocked (t : Tid)
  | nodeNext (t : Tid)
  | spinFlag
deriving DecidableEq

/-- Order of `q.exchange(&node, ...)` in mcs_lock::lock (bt2_locks.cpp). -/
def mcsExchangeOrder : MemOrder := .release

/-- Order of the final `node.unlocked.load(...)` in mcs_lock::lock. -/
def mcsFinalLoadOrder : MemOrder := .acquire

/-- Order of `q.compare_exchange_strong(..., ...)` in mcs_lock::unlock. -/
def mcsCasOrder : MemOrder := .release

/-- Order of `node.next->unlocked.store(true, ...)` in mcs_lock::unlock. -/
def mcsWakeStoreOrder : MemOrder := .release

/-- Order of `flag.test_and_set(...)` in spin_lock::lock. -/
def spinTasOrder : MemOrder := .acquire

/-- Order of `flag.clear(...)` in spin_lock::unlock. -/
def spinClearOrder : MemOrder := .release

/-- Location of the tail exchange in mcs_lock::lock. -/
def mcsExchangeLoc : Loc := .tailQ

/-- Location of the tail CAS in mcs_lock::unlock. -/
def mcsCasLoc : Loc := .tailQ

/-- Location of the successor-waking store of mcs_lock::unlock: the
successor's own `unlocked` flag. -/
def mcsWakeStoreLoc (s : Tid) : Loc := .nodeUnlocked s

/-- Location of the final acquire load of mcs_lock::lock: the calling
thread's own `unlocked` flag. -/
def mcsFinalLoadLoc (t : Tid) : Loc := .nodeUnlocked t

/-- Location of the spinlock test-and-set. -/
def spinTasLoc : Loc := .spinFlag

/-- Location of the spinlock clear. -/
def spinClearLoc : Loc := .spinFlag

end MemOrd

/-- C3 counterexample evidence: the spinlock claim (test_and_set acquire
reading clear's release on the same flag) and the contended MCS hand-off
(acquire load of the waiter's own `unlocked` reading the release store of
unlock) do establish acquire/release pairs; but on the uncontended MCS path
the claiming read is the read side of the tail exchange, which uses
memory_order_release only — not an acquire operation — so it cannot
synchronize-with the release CAS of the previous unlock, and the only
acquire operation in lock() reads a different atomic object than the
released tail (the thread's own `unlocked` flag, which the previous holder
never wrote on that path).  Hence the claim fails for the MCS uncontended
path. -/
theorem c3_memory_order :
    (MemOrd.canSyncWith MemOrd.spinClearOrder MemOrd.spinTasOrder = true ∧
      MemOrd.spinClearLoc = MemOrd.spinTasLoc) ∧
    (MemOrd.canSyncWith MemOrd.mcsWakeStoreOrder MemOrd.mcsFinalLoadOrder = true ∧
      MemOrd.mcsWakeStoreLoc 1 = MemOrd.mcsFinalLoadLoc 1) ∧
    (MemOrd.canSyncWith MemOrd.mcsCasOrder MemOrd.mcsExchangeOrder = false ∧
      MemOrd.MemOrder.isAcquire MemOrd.mcsExchangeOrder = false ∧
      MemOrd.mcsFinalLoadLoc 1 ≠ MemOrd.mcsCasLoc) := by
  refine ⟨⟨rfl, rfl⟩, ⟨rfl, rfl⟩, ⟨rfl, rfl, ?_⟩⟩
  intro h
  cases h

namespace Multi

/-- Program counter for a system with two `mcs_lock` objects (lock ids are
booleans); each in-operation pc carries the lock the operation is on. -/
inductive MPC where
  | idle
  | l1 (L : Bool)
  | l2 (L : Bool)
  | l3 (L : Bool)
  | l4 (L : Bool) (pred : Tid)
  | l5 (L : Bool)
  | l6 (L : Bool)
  | cs (L : Bool)
  | u1 (L : Bool)
  | u2 (L : Bool)
  | u3 (L : Bool)
  | u5 (L : Bool)
deriving DecidableEq

/-- Configuration with two mcs_lock instances.  Each lock has its own tail
`q`, but the node state is keyed by thread only: bt2_locks.cpp declares
`thread_local mcs_lock::mcs_node mcs_lock::node` as a single static member,
so all mcs_lock objects in the process share one node per thread. -/
structure MConfig where
  tails : Bool → Option Tid
  next : Tid → Option Tid
  unlocked : Tid → Bool
  pc : Tid → MPC

/-- The same atomic steps as `Mcs.Step`, instantiated per lock `L`, acting
on the single per-thread node.  `nestedCall` models a thread invoking
lock() on the other lock while inside the critical section of the first
(the pc tracks the innermost active operation; the shared data `tails`,
`next`, `unlocked` is tracked exactly). -/
inductive Step : Tid → MConfig → MConfig → Prop where
  | call (t : Tid) (c : MConfig) (L : Bool) (h : c.pc t = .idle) :
      Step t c { c with pc := upd c.pc t (.l1 L) }
  | nestedCall (t : Tid) (c : MConfig) (L L' : Bool) (h : c.pc t = .cs L)
      (hne : L' ≠ L) :
      Step t c { c with pc := upd c.pc t (.l1 L') }
  | resetNext (t : Tid) (c : MConfig) (L : Bool) (h : c.pc t = .l1 L) :
      Step t c { c with next := upd c.next t none, pc := upd c.pc t (.l2 L) }
  | resetUnlocked (t : Tid) (c : MConfig) (L : Bool) (h : c.pc t = .l2 L) :
      Step t c { c with unlocked := upd c.unlocked t false,
                        pc := upd c.pc t (.l3 L) }
  | exchFree (t : Tid) (c : MConfig) (L : Bool) (h : c.pc t = .l3 L)
      (hq : c.tails L = none) :
      Step t c { c with tails := upd c.tails L (some t), pc := upd c.pc t (.l6 L) }
  | exchQueued (t : Tid) (c : MConfig) (L : Bool) (p : Tid) (h : c.pc t = .l3 L)
      (hq : c.tails L = some p) :
      Step t c { c with tails := upd c.tails L (some t),
                        pc := upd c.pc t (.l4 L p) }
  | link (t : Tid) (c : MConfig) (L : Bool) (p : Tid) (h : c.pc t = .l4 L p) :
      Step t c { c with next := upd c.next p (some t), pc := upd c.pc t (.l5 L) }
  | spinExit (t : Tid) (c : MConfig) (L : Bool) (h : c.pc t = .l5 L)
      (hu : Mcs.spin_exits (c.unlocked t) false) :
      Step t c { c with pc := upd c.pc t (.l6 L) }
  | acqLoad (t : Tid) (c : MConfig) (L : Bool) (h : c.pc t = .l6 L) :
      Step t c { c with pc := upd c.pc t (.cs L) }
  | beginUnlock (t : Tid) (c : MConfig) (L : Bool) (h : c.pc t = .cs L) :
      Step t c { c with pc := upd c.pc t (.u1 L) }
  | checkNextNone (t : Tid) (c : MConfig) (L : Bool) (h : c.pc t = .u1 L)
      (hn : c.next t = none) :
      Step t c { c with pc := upd c.pc t (.u2 L) }
  | checkNextSome (t : Tid) (c : MConfig) (L : Bool) (s : Tid) (h : c.pc t = .u1 L)
      (hn : c.next t = some s) :
      Step t c { c with pc := upd c.pc t (.u5 L) }
  | casSuccess (t : Tid) (c : MConfig) (L : Bool) (h : c.pc t = .u2 L)
      (hq : c.tails L = some t) :
      Step t c { c with tails := upd c.tails L none, pc := upd c.pc t .idle }
  | casFail (t : Tid) (c : MConfig) (L : Bool) (h : c.pc t = .u2 L)
      (hq : c.tails L ≠ some t) :
      Step t c { c with pc := upd c.pc t (.u3 L) }
  | waitLink (t : Tid) (c : MConfig) (L : Bool) (h : c.pc t = .u3 L)
      (hn : Mcs.spin_exits (c.next t) (none : Option Tid)) :
      Step t c { c with pc := upd c.pc t (.u5 L) }
  | wake (t : Tid) (c : MConfig) (L : Bool) (s : Tid) (h : c.pc t = .u5 L)
      (hn : c.next t = some s) :
      Step t c { c with unlocked := upd c.unlocked s true, pc := upd c.pc t .idle }

/-- Some thread takes a step. -/
def StepAny (c c' : MConfig) : Prop := ∃ t, Step t c c'

/-- Initially both locks are free and all threads are outside. -/
def Init (c : MConfig) : Prop := (∀ L, c.tails L = none) ∧ ∀ t, c.pc t = .idle

/-- Reachability for the two-lock system. -/
def Reachable (c : MConfig) : Prop :=
  ∃ c₀, Init c₀ ∧ Relation.ReflTransGen StepAny c₀ c

def m0 : MConfig :=
  { tails := fun _ => none, next := fun _ => none, unlocked := fun _ => false,
    pc := fun _ => .idle }

def m1 : MConfig := { m0 with pc := upd m0.pc 0 (.l1 false) }

def m2 : MConfig := { m1 with next := upd m1.next 0 none, pc := upd m1.pc 0 (.l2 false) }

def m3 : MConfig :=
  { m2 with unlocked := upd m2.unlocked 0 false, pc := upd m2.pc 0 (.l3 false) }

def m4 : MConfig :=
  { m3 with tails := upd m3.tails false (some 0), pc := upd m3.pc 0 (.l6 false) }

def m5 : MConfig := { m4 with pc := upd m4.pc 0 (.cs false) }

def m6 : MConfig := { m5 with pc := upd m5.pc 1 (.l1 false) }

def m7 : MConfig := { m6 with next := upd m6.next 1 none, pc := upd m6.pc 1 (.l2 false) }

def m8 : MConfig :=
  { m7 with unlocked := upd m7.unlocked 1 false, pc := upd m7.pc 1 (.l3 false) }

def m9 : MConfig :=
  { m8 with tails := upd m8.tails false (some 1), pc := upd m8.pc 1 (.l4 false 0) }

/-- Mid-point of the run: thread 0 holds lock A, thread 1 has linked itself
behind it (`next 0 = some 1`) and spins on its own flag. -/
def m10 : MConfig := { m9 with next := upd m9.next 0 (some 1), pc := upd m9.pc 1 (.l5 false) }

def m11 : MConfig := { m10 with pc := upd m10.pc 0 (.l1 true) }

def m12 : MConfig :=
  { m11 with next := upd m11.next 0 none, pc := upd m11.pc 0 (.l2 true) }

def m13 : MConfig :=
  { m12 with unlocked := upd m12.unlocked 0 false, pc := upd m12.pc 0 (.l3 true) }

def m14 : MConfig :=
  { m13 with tails := upd m13.tails true (some 0), pc := upd m13.pc 0 (.l6 true) }

/-- End of the run: thread 0 has re-enqueued its (only) node into lock B and
entered B's critical section; lock A's tail still points at thread 1, which
still waits, but the link `next 0` was wiped by the reset in the second
lock() call. -/
def m15 : MConfig := { m14 with pc := upd m14.pc 0 (.cs true) }

theorem m10_chain : Relation.ReflTransGen StepAny m0 m10 :=
  Relation.ReflTransGen.tail
    (Relation.ReflTransGen.tail
      (Relation.ReflTransGen.tail
        (Relation.ReflTransGen.tail
          (Relation.ReflTransGen.tail
            (Relation.ReflTransGen.tail
              (Relation.ReflTransGen.tail
                (Relation.ReflTransGen.tail
                  (Relation.ReflTransGen.tail
                    (Relation.ReflTransGen.tail Relation.ReflTransGen.refl
                      ⟨0, Step.call 0 m0 false rfl⟩)
                    ⟨0, Step.resetNext 0 m1 false rfl⟩)
                  ⟨0, Step.resetUnlocked 0 m2 false rfl⟩)
                ⟨0, Step.exchFree 0 m3 false rfl rfl⟩)
              ⟨0, Step.acqLoad 0 m4 false rfl⟩)
            ⟨1, Step.call 1 m5 false rfl⟩)
          ⟨1, Step.resetNext 1 m6 false rfl⟩)
        ⟨1, Step.resetUnlocked 1 m7 false rfl⟩)
      ⟨1, Step.exchQueued 1 m8 false 0 rfl rfl⟩)
    ⟨1, Step.link 1 m9 false 0 rfl⟩

theorem m15_chain : Relation.ReflTransGen StepAny m10 m15 :=
  Relation.ReflTransGen.tail
    (Relation.ReflTransGen.tail
      (Relation.ReflTransGen.tail
        (Relation.ReflTransGen.tail
          (Relation.ReflTransGen.tail Relation.ReflTransGen.refl
            ⟨0, Step.nestedCall 0 m10 false true rfl (fun h => Bool.noConfusion h)⟩)
          ⟨0, Step.resetNext 0 m11 true rfl⟩)
        ⟨0, Step.resetUnlocked 0 m12 true rfl⟩)
      ⟨0, Step.exchFree 0 m13 true rfl rfl⟩)
    ⟨0, Step.acqLoad 0 m14 true rfl⟩

theorem m10_reach : Reachable m10 := ⟨m0, ⟨fun _ => rfl, fun _ => rfl⟩, m10_chain⟩

end Multi

/-- C9: the MCS node is a single static thread_local member shared by all
mcs_lock instances (modelled by `Multi.MConfig` keying node state by thread
only, per `thread_local mcs_lock::mcs_node mcs_lock::node`).  Concretely: in
a reachable configuration thread 0 holds lock A with thread 1 linked behind
it (`next 0 = some 1`); thread 0 then calls lock() on lock B, which resets
and re-enqueues the same node, after which `next 0 = none` although lock
A's tail still points at the still-waiting thread 1 — the first lock's
queue link is destroyed — and the same node is now also lock B's tail. -/
theorem c9_single_node_per_thread :
    Multi.Reachable Multi.m10 ∧
    Multi.m10.next 0 = some 1 ∧ Multi.m10.tails false = some 1 ∧
    Multi.m10.pc 1 = Multi.MPC.l5 false ∧
    Relation.ReflTransGen Multi.StepAny Multi.m10 Multi.m15 ∧
    Multi.m15.next 0 = none ∧ Multi.m15.tails false = some 1 ∧
    Multi.m15.pc 1 = Multi.MPC.l5 false ∧ Multi.m15.unlocked 1 = false ∧
    Multi.m15.tails true = some 0 ∧ Multi.m15.pc 0 = Multi.MPC.cs true :=
  ⟨Multi.m10_reach, rfl, rfl, rfl, Multi.m15_chain, rfl, rfl, rfl, rfl, rfl, rfl⟩

namespace Convert

/-- One input line of the Bowtie map file as seen after the sscanf call in
convert_bwt_to_maq (bowtie_convert.cpp).  `nFields` is sscanf's return value
(number of fields successfully converted; EOF, i.e. -1, on an empty line);
the other fields are the parsed buffers used by the conversion. -/
structure BwtRecord where
  nFields : Int
  name : String
  strand : Char
  textName : String
  textOffset : Nat

/-- Lookup in the names_to_ids map built from the BFA file (std::map find;
absent keys yield end(), modelled as none). -/
def findId : List (String × Nat) → String → Option Nat
  | [], _ => none
  | (n, i) :: rest, key => if n = key then some i else findId rest key

/-- The part of a Maq alignment record this model tracks: read name, the
reference-sequence id resolved through names_to_ids, and the packed
position. -/
structure Aln where
  name : String
  seqid : Nat
  pos : Nat
deriving DecidableEq

/-- Position packing of the source: `(text_offset << 1) | (orientation ==
'+' ? 0 : 1)`. -/
def packPos (offset : Nat) (strand : Char) : Nat :=
  2 * offset + (if strand = '+' then 0 else 1)

/-- Record-level effect of one iteration of the while(fgets) loop of
convert_bwt_to_maq (bowtie_convert.cpp): if sscanf returned more than zero
but fewer than six fields, warn and `continue` (no alignment appended);
otherwise, if the parsed reference name is absent from names_to_ids, warn
and `continue`; otherwise one alignment is appended (n_mapped_reads is
incremented past the filled slot). -/
def processRecord (names : List (String × Nat)) (acc : List Aln)
    (r : BwtRecord) : List Aln :=
  if 0 < r.nFields ∧ r.nFields < 6 then acc
  else
    match findId names r.textName with
    | none => acc
    | some sid => acc ++ [⟨r.name, sid, packPos r.textOffset r.strand⟩]

/-- The record loop of convert_bwt_to_maq: alignments accumulated over the
input lines in order. -/
def convert_bwt_to_maq (names : List (String × Nat))
    (records : List BwtRecord) : List Aln :=
  records.foldl (processRecord names) []

def names1 : List (String × Nat) := [("chr1", 0)]

def rBad : BwtRecord := { nFields := 3, name := "r1", strand := '+', textName := "chr1", textOffset := 7 }

def rUnknown : BwtRecord := { nFields := 8, name := "r2", strand := '-', textName := "chrX", textOffset := 9 }

def rGood : BwtRecord := { nFields := 8, name := "r3", strand := '+', textName := "chr1", textOffset := 5 }

def rGood2 : BwtRecord := { nFields := 8, name := "r4", strand := '-', textName := "chr1", textOffset := 6 }

end Convert

/-- C10: convert_bwt_to_maq skips, rather than aborts on, bad input records:
a line sscanf parses into at least one but fewer than six fields is skipped;
a record whose reference name is absent from names_to_ids is skipped;
neither contributes an alignment to the output, and the fold over the
remaining lines continues unchanged. -/
theorem c10_skip_bad_records :
    (∀ (names : List (String × Nat)) (acc : List Convert.Aln)
        (r : Convert.BwtRecord), 0 < r.nFields → r.nFields < 6 →
      Convert.processRecord names acc r = acc) ∧
    (∀ (names : List (String × Nat)) (acc : List Convert.Aln)
        (r : Convert.BwtRecord), Convert.findId names r.textName = none →
      Convert.processRecord names acc r = acc) ∧
    (∀ (names : List (String × Nat)) (pre post : List Convert.BwtRecord)
        (r : Convert.BwtRecord),
      ((0 < r.nFields ∧ r.nFields < 6) ∨ Convert.findId names r.textName = none) →
      Convert.convert_bwt_to_maq names (pre ++ r :: post) =
        Convert.convert_bwt_to_maq names (pre ++ post)) := by
  have hskip1 : ∀ (names : List (String × Nat)) (acc : List Convert.Aln)
      (r : Convert.BwtRecord), 0 < r.nFields → r.nFields < 6 →
      Convert.processRecord names acc r = acc := by
    intro names acc r h1 h2
    unfold Convert.processRecord
    rw [if_pos ⟨h1, h2⟩]
  have hskip2 : ∀ (names : List (String × Nat)) (acc : List Convert.Aln)
      (r : Convert.BwtRecord), Convert.findId names r.textName = none →
      Convert.processRecord names acc r = acc := by
    intro names acc r hfind
    unfold Convert.processRecord
    by_cases hf : 0 < r.nFields ∧ r.nFields < 6
    · rw [if_pos hf]
    · rw [if_neg hf, hfind]
  refine ⟨hskip1, hskip2, ?_⟩
  intro names pre post r hr
  have hskip : Convert.processRecord names
      (List.foldl (Convert.processRecord names) [] pre) r =
      List.foldl (Convert.processRecord names) [] pre := by
    rcases hr with ⟨h1, h2⟩ | h
    · exact hskip1 names _ r h1 h2
    · exact hskip2 names _ r h
  unfold Convert.convert_bwt_to_maq
  rw [List.foldl_append, List.foldl_append, List.foldl_cons, hskip]

/-- Witness for C10: a malformed record (3 fields) and a record mapping to a
reference absent from the BFA map are both dropped, and dropping them from
the middle of a run leaves the conversion of the remaining records
unchanged. -/
theorem c10_skip_bad_records_witness :
    (0 < Convert.rBad.nFields ∧ Convert.rBad.nFields < 6 ∧
      Convert.processRecord Convert.names1 [] Convert.rBad = []) ∧
    (Convert.findId Convert.names1 Convert.rUnknown.textName = none ∧
      Convert.processRecord Convert.names1 [] Convert.rUnknown = []) ∧
    (((0 < Convert.rBad.nFields ∧ Convert.rBad.nFields < 6) ∨
        Convert.findId Convert.names1 Convert.rBad.textName = none) ∧
      Convert.convert_bwt_to_maq Convert.names1
          ([Convert.rGood] ++ Convert.rBad :: [Convert.rGood2]) =
        Convert.convert_bwt_to_maq Convert.names1
          ([Convert.rGood] ++ [Convert.rGood2])) :=
  ⟨⟨by decide, by decide,
      c10_skip_bad_records.1 Convert.names1 [] Convert.rBad (by decide) (by decide)⟩,
    ⟨rfl, c10_skip_bad_records.2.1 Convert.names1 [] Convert.rUnknown rfl⟩,
    ⟨Or.inl ⟨by decide, by decide⟩,
      c10_skip_bad_records.2.2 Convert.names1 [Convert.rGood] [Convert.rGood2]
        Convert.rBad (Or.inl ⟨by decide, by decide⟩)⟩⟩
